import Mathlib

/-!
# Chat server (`src/A1/server_grp.cpp`)

A shallow embedding of the group-messaging server.  A `std::string` is a list
of characters, `std::unordered_map` is an association list whose list order
stands for the (unspecified) iteration order, `std::unordered_set<int>` is a
list of socket descriptors.  Every `send` is recorded, in program order, as a
pair (destination socket, text).  One step of a session (the credential check,
one pass through the command loop, the disconnection block) is executed
atomically.
-/

namespace ChatServer

/-! ## Strings -/

/-- A C++ `std::string`, one list element per `char`. -/
abbrev Str := List Char

/-- Size of the receive buffer (`#define BUFFER_SIZE 1024`). -/
def BUFFER_SIZE : Nat := 1024

/-- Index of the first occurrence of `ch` in `s`; `none` stands for `string::npos`. -/
def findChar (ch : Char) : Str → Option Nat
  | [] => none
  | x :: xs => if x = ch then some 0 else (findChar ch xs).map (· + 1)

/-- The call `s.find(ch, pos)`: first index `≥ pos` holding `ch`, `none` for `npos`. -/
def find (s : Str) (ch : Char) (pos : Nat) : Option Nat :=
  (findChar ch (s.drop pos)).map (· + pos)

/-- The call `s.substr(pos, n)`.  Every call site in the source has `pos ≤ s.size()`,
so the `out_of_range` exception of `substr` never arises. -/
def substr (s : Str) (pos n : Nat) : Str := (s.drop pos).take n

/-- The call `s.substr(pos)`, again only used with `pos ≤ s.size()`. -/
def substrFrom (s : Str) (pos : Nat) : Str := s.drop pos

/-- Source `contains_space`: `s.find(' ') != string::npos`. -/
def contains_space (s : Str) : Bool := (find s ' ' 0).isSome

/-! ## Containers -/

/-- A `std::unordered_map<K, V>`: association list, first match wins. -/
abbrev UMap (K V : Type) := List (K × V)

namespace UMap

variable {K V : Type} [DecidableEq K]

/-- The call `m.find(k)`; `none` stands for `m.end()`. -/
def find : UMap K V → K → Option V
  | [], _ => none
  | (k', v) :: rest, k => if k' = k then some v else find rest k

/-- The call `m.count(k)`. -/
def count (m : UMap K V) (k : K) : Nat := if (find m k).isSome then 1 else 0

/-- The assignment `m[k] = v`: overwrite the entry of `k`, or add one. -/
def assign : UMap K V → K → V → UMap K V
  | [], k, v => [(k, v)]
  | (k', v') :: rest, k, v =>
      if k' = k then (k', v) :: rest else (k', v') :: assign rest k v

/-- The expression `m[k]` (`operator[]`): when `k` is absent an entry with the
value-initialised `dflt` is inserted first.  Returns the map afterwards and the
value referred to. -/
def index (m : UMap K V) (k : K) (dflt : V) : UMap K V × V :=
  match find m k with
  | some v => (m, v)
  | none => (assign m k dflt, dflt)

/-- The call `m.erase(k)`. -/
def erase (m : UMap K V) (k : K) : UMap K V := m.filter (fun e => e.1 ≠ k)

end UMap

/-- A `std::unordered_set<int>` of socket descriptors. -/
abbrev USet := List Int

namespace USet

/-- The call `s.insert(x)`. -/
def insert (s : USet) (x : Int) : USet := if x ∈ s then s else s ++ [x]

/-- The call `s.erase(x)`. -/
def erase (s : USet) (x : Int) : USet := s.filter (fun y => y ≠ x)

end USet

/-! ## Server state and steps -/

/-- One `send(socket, text)` call. -/
abbrev Send := Int × Str

/-- The globals `clients` and `groups`. -/
structure Server where
  clients : UMap Int Str
  groups : UMap Str USet
  deriving DecidableEq

/-- Result of one atomic step of a session: the globals afterwards, the `send`
calls made in order, and whether the session left the command loop / closed. -/
structure Outcome where
  st : Server
  out : List Send
  closed : Bool
  deriving DecidableEq

/-- The texts that socket `c` is sent, in order. -/
def received (c : Int) (out : List Send) : List Str :=
  (out.filter (fun m => m.1 = c)).map Prod.snd

/-- Source `group_message`: `groups[group_name]` is `operator[]`. -/
def group_message (groups : UMap Str USet) (client_socket : Int)
    (group_name message : Str) : UMap Str USet × List Send :=
  let full_message := "[Group ".toList ++ group_name ++ "]: ".toList ++ message ++ "\n".toList
  let r := UMap.index groups group_name []
  (r.1, (r.2.filter (fun member_socket => member_socket ≠ client_socket)).map
          (fun member_socket => (member_socket, full_message)))

/-- The username/password prompts of `handle_client` (source lines 84-104).
Each `recv` result is `none` when `bytes_received <= 0`.  Returns the sends and,
when both reads succeed, the pair handed to the credential check. -/
def handle_client_prompts (client_socket : Int) (recv1 recv2 : Option Str) :
    List Send × Option (Str × Str) :=
  match recv1 with
  | none => ([(client_socket, "Enter username: ".toList)], none)
  | some username =>
    match recv2 with
    | none => ([(client_socket, "Enter username: ".toList),
                (client_socket, "Enter password: ".toList)], none)
    | some password => ([(client_socket, "Enter username: ".toList),
                (client_socket, "Enter password: ".toList)], some (username, password))

/-- The condition of source line 107:
`users.find(username) != users.end() && users[username] == password`. -/
def validate (users : UMap Str Str) (username password : Str) : Bool :=
  (UMap.find users username).isSome && ((UMap.index users username []).2 == password)

/-- The credential check of `handle_client` (source lines 107-137 and 421-426). -/
def handle_client_auth (users : UMap Str Str) (st : Server) (client_socket : Int)
    (username password : Str) : Outcome :=
  if validate users username password then
    if st.clients.any (fun client => client.2 = username) then
      ⟨st, [(client_socket,
        "Error: User \"".toList ++ username ++ "\" is already connected.\n".toList)], true⟩
    else
      let clients := UMap.assign st.clients client_socket username
      let join_msg := username ++ " has joined the chat.\n".toList
      ⟨⟨clients, st.groups⟩,
        ((clients.filter (fun client => client.1 ≠ client_socket)).map
            (fun client => (client.1, join_msg)))
          ++ [(client_socket, "Welcome to the chat server!\n".toList)], false⟩
  else
    ⟨st, [(client_socket, "Error: Authentication failed.\n".toList)], true⟩

/-- The scan of source lines 184-195: first entry whose name is `target_user`,
or the initial value `-1`. -/
def target_socket : UMap Int Str → Str → Int
  | [], _ => -1
  | (fd, name) :: rest, target_user =>
      if name = target_user then fd else target_socket rest target_user

/-- A reply to the issuing socket after which the loop goes on (`send` then `continue`,
or `send` at the end of a branch). -/
def reply (st : Server) (client_socket : Int) (text : Str) : Outcome :=
  ⟨st, [(client_socket, text)], false⟩

/-- Branch `/msg <username> <message>` of the command loop (source lines 167-214). -/
def cmd_msg (st : Server) (client_socket : Int) (username message : Str) : Outcome :=
  match find message ' ' 5 with
  | none =>
    reply st client_socket "Error: Incorrect format. Use: /msg <username> <message>\n".toList
  | some space1 =>
    let target_user := substr message 5 (space1 - 5)
    let private_msg := substrFrom message (space1 + 1)
    if private_msg.isEmpty then
      reply st client_socket "Error: Private message content is empty.\n".toList
    else
      let target := target_socket st.clients target_user
      if target ≠ -1 then
        if target = client_socket then
          reply st client_socket "Error: Cannot send a private message to yourself.\n".toList
        else
          ⟨st, [(target, "[".toList ++ username ++ "]: ".toList ++ private_msg ++ "\n".toList)],
            false⟩
      else
        reply st client_socket
          ("Error: User \"".toList ++ target_user ++ "\" not found.\n".toList)

/-- Branch `/broadcast <message>` of the command loop (source lines 216-238). -/
def cmd_broadcast (st : Server) (client_socket : Int) (username message : Str) : Outcome :=
  if message.length ≤ 10 ∨ message.get? 10 ≠ some ' ' then
    reply st client_socket "Error: Incorrect format. Use: /broadcast <message>\n".toList
  else
    let broadcast_content := substrFrom message 11
    if broadcast_content.isEmpty then
      reply st client_socket "Error: Broadcast message content is empty.\n".toList
    else
      let broadcast_msg :=
        "[".toList ++ username ++ "] (Broadcast): ".toList ++ broadcast_content ++ "\n".toList
      ⟨st, (st.clients.filter (fun client => client.1 ≠ client_socket)).map
              (fun client => (client.1, broadcast_msg)), false⟩

/-- Branch `/create_group <group name>` of the command loop (source lines 240-276). -/
def cmd_create_group (st : Server) (client_socket : Int) (message : Str) : Outcome :=
  if message.length ≤ 13 ∨ message.get? 13 ≠ some ' ' then
    reply st client_socket "Error: Incorrect format. Use: /create_group <group name>\n".toList
  else
    let group_name := substrFrom message 14
    if group_name.isEmpty then
      reply st client_socket "Error: Group name cannot be empty.\n".toList
    else if contains_space group_name then
      reply st client_socket "Error: Group name must not contain spaces.\n".toList
    else if UMap.count st.groups group_name = 0 then
      let r := UMap.index st.groups group_name []
      reply ⟨st.clients, UMap.assign r.1 group_name (USet.insert r.2 client_socket)⟩
        client_socket ("Group \"".toList ++ group_name ++ "\" created successfully.\n".toList)
    else
      reply st client_socket
        ("Error: Group \"".toList ++ group_name ++ "\" already exists.\n".toList)

/-- Branch `/join_group <group name>` of the command loop (source lines 278-316). -/
def cmd_join_group (st : Server) (client_socket : Int) (message : Str) : Outcome :=
  if message.length ≤ 11 ∨ message.get? 11 ≠ some ' ' then
    reply st client_socket "Error: Incorrect format. Use: /join_group <group name>\n".toList
  else
    let group_name := substrFrom message 12
    if group_name.isEmpty then
      reply st client_socket "Error: Group name cannot be empty.\n".toList
    else if UMap.count st.groups group_name = 0 then
      reply st client_socket
        ("Error: Group \"".toList ++ group_name ++ "\" does not exist.\n".toList)
    else
      let r := UMap.index st.groups group_name []
      if client_socket ∈ r.2 then
        reply ⟨st.clients, r.1⟩ client_socket
          ("Error: Already a member of group \"".toList ++ group_name ++ "\".\n".toList)
      else
        reply ⟨st.clients, UMap.assign r.1 group_name (USet.insert r.2 client_socket)⟩
          client_socket
          ("Joined group \"".toList ++ group_name ++ "\" successfully.\n".toList)

/-- Branch `/group_msg <group name> <message>` of the command loop (source lines 318-358). -/
def cmd_group_msg (st : Server) (client_socket : Int) (message : Str) : Outcome :=
  if message.length ≤ 10 ∨ message.get? 10 ≠ some ' ' then
    reply st client_socket
      "Error: Incorrect format. Use: /group_msg <group name> <message>\n".toList
  else
    match find message ' ' 11 with
    | none =>
      reply st client_socket
        "Error: Incorrect format. Use: /group_msg <group name> <message>\n".toList
    | some space1 =>
      let group_name := substr message 11 (space1 - 11)
      let group_msg := substrFrom message (space1 + 1)
      if group_msg.isEmpty then
        reply st client_socket "Error: Group message content is empty.\n".toList
      else if UMap.count st.groups group_name = 0 then
        reply st client_socket
          ("Error: Group \"".toList ++ group_name ++ "\" does not exist.\n".toList)
      else
        let r := UMap.index st.groups group_name []
        if client_socket ∉ r.2 then
          reply ⟨st.clients, r.1⟩ client_socket
            ("Error: Not a member of group \"".toList ++ group_name ++ "\".\n".toList)
        else
          let g := group_message r.1 client_socket group_name group_msg
          ⟨⟨st.clients, g.1⟩, g.2, false⟩

/-- Branch `/leave_group <group name>` of the command loop (source lines 360-397). -/
def cmd_leave_group (st : Server) (client_socket : Int) (message : Str) : Outcome :=
  if message.length ≤ 12 ∨ message.get? 12 ≠ some ' ' then
    reply st client_socket "Error: Incorrect format. Use: /leave_group <group name>\n".toList
  else
    let group_name := substrFrom message 13
    if group_name.isEmpty then
      reply st client_socket "Error: Group name cannot be empty.\n".toList
    else if UMap.count st.groups group_name ≠ 0 then
      let r := UMap.index st.groups group_name []
      if client_socket ∈ r.2 then
        reply ⟨st.clients, UMap.assign r.1 group_name (USet.erase r.2 client_socket)⟩
          client_socket ("Left group \"".toList ++ group_name ++ "\" successfully.\n".toList)
      else
        reply ⟨st.clients, r.1⟩ client_socket
          ("Error: Not a member of group \"".toList ++ group_name ++ "\".\n".toList)
    else
      reply st client_socket
        ("Error: Group \"".toList ++ group_name ++ "\" does not exist.\n".toList)

/-- One pass through the command loop of `handle_client` for a received `message`
(source lines 147-403): the `exit` test, the empty test, then the dispatch on the
prefix in source order.  `username` is the local variable set at authentication. -/
def handle_client_command (st : Server) (client_socket : Int) (username message : Str) :
    Outcome :=
  if message = "exit".toList then
    ⟨st, [(client_socket, "Goodbye.\n".toList)], true⟩
  else if message.isEmpty then
    reply st client_socket "Error: Message cannot be empty.\n".toList
  else if substr message 0 4 = "/msg".toList then
    cmd_msg st client_socket username message
  else if substr message 0 10 = "/broadcast".toList then
    cmd_broadcast st client_socket username message
  else if substr message 0 13 = "/create_group".toList then
    cmd_create_group st client_socket message
  else if substr message 0 11 = "/join_group".toList then
    cmd_join_group st client_socket message
  else if substr message 0 10 = "/group_msg".toList then
    cmd_group_msg st client_socket message
  else if substr message 0 12 = "/leave_group".toList then
    cmd_leave_group st client_socket message
  else
    reply st client_socket "Error: Unknown command.\n".toList

/-- The disconnection block of `handle_client` (source lines 406-418): the leave
notice goes to every other registered socket, then the entry is erased. -/
def handle_client_disconnect (st : Server) (client_socket : Int) (username : Str) : Outcome :=
  ⟨⟨UMap.erase st.clients client_socket, st.groups⟩,
    (st.clients.filter (fun client => client.1 ≠ client_socket)).map
      (fun client => (client.1, username ++ " has left the chat.\n".toList)), true⟩

/-- One iteration of the command loop together with what follows a `break`:
`none` is a `recv` with `bytes_received <= 0`. -/
def handle_client_step (st : Server) (client_socket : Int) (username : Str)
    (recv : Option Str) : Outcome :=
  match recv with
  | none => handle_client_disconnect st client_socket username
  | some message =>
    let r := handle_client_command st client_socket username message
    if r.closed then
      let d := handle_client_disconnect r.st client_socket username
      ⟨d.st, r.out ++ d.out, true⟩
    else r

/-- States the server reaches from `s0`: connections accepted by `main` have a
non-negative descriptor, and a session runs its command loop under the name it
registered. -/
inductive ReachableFrom (users : UMap Str Str) (s0 : Server) : Server → Prop
  | start : ReachableFrom users s0 s0
  | auth {st : Server} (c : Int) (username password : Str) :
      ReachableFrom users s0 st → 0 ≤ c →
      ReachableFrom users s0 (handle_client_auth users st c username password).st
  | step {st : Server} (c : Int) (username : Str) (recv : Option Str) :
      ReachableFrom users s0 st → UMap.find st.clients c = some username →
      ReachableFrom users s0 (handle_client_step st c username recv).st

/-- States reachable from server start, where both registries are empty. -/
def Reachable (users : UMap Str Str) (st : Server) : Prop :=
  ReachableFrom users ⟨[], []⟩ st

/-- What holds of the client registry in every state the server reaches: no
descriptor is listed twice, descriptors are non-negative, and no name is carried
by two descriptors. -/
def ClientsInv (clients : UMap Int Str) : Prop :=
  (clients.map Prod.fst).Nodup ∧ (∀ e ∈ clients, 0 ≤ e.1) ∧
    ∀ e1 ∈ clients, ∀ e2 ∈ clients, e1.2 = e2.2 → e1.1 = e2.1

/-- What holds of the group registry in every state the server reaches: no name
is listed twice, no member is listed twice, and every name is non-empty and free
of spaces. -/
def GroupsInv (groups : UMap Str USet) : Prop :=
  (groups.map Prod.fst).Nodup ∧
    ∀ e ∈ groups, e.2.Nodup ∧ e.1 ≠ [] ∧ contains_space e.1 = false

/-! ## Credential store -/

/-- One pass of the `while (getline(file, line))` loop of `load_users` (source
lines 45-51): the line is split at its first `:` and `users[username] = password`
is executed; a line without `:` is skipped. -/
def load_users_line (users : UMap Str Str) (line : Str) : UMap Str Str :=
  match find line ':' 0 with
  | none => users
  | some pos => UMap.assign users (substr line 0 pos) (substrFrom line (pos + 1))

/-- Source `load_users`, acting on the global `users`.  The file is `none` when it
cannot be opened, and otherwise the lines that `getline` yields, in order. -/
def load_users (users : UMap Str Str) (file : Option (List Str)) : UMap Str Str :=
  match file with
  | none => users
  | some lines => lines.foldl load_users_line users

/-! ## Example states -/

/-- A credential store with two users. -/
def demoUsers : UMap Str Str := [("alice".toList, "pw1".toList), ("bob".toList, "pw2".toList)]

/-- The server after `alice` logged in on socket 3 and `bob` on socket 4. -/
def demoPair : Server := ⟨[(3, "alice".toList), (4, "bob".toList)], []⟩

/-- The state `demoPair` after socket 3 sent `/create_group team`. -/
def demoSolo : Server := ⟨[(3, "alice".toList), (4, "bob".toList)], [("team".toList, [3])]⟩

/-- The state `demoSolo` after socket 4 sent `/join_group team`. -/
def demoTeam : Server := ⟨[(3, "alice".toList), (4, "bob".toList)], [("team".toList, [3, 4])]⟩

/-- The state `demoPair` after socket 3 sent `/create_group a<TAB>b`. -/
def demoTab : Server := ⟨[(3, "alice".toList), (4, "bob".toList)], [("a\tb".toList, [3])]⟩

/-- The state `demoSolo` after socket 3 sent `/leave_group team`. -/
def demoEmptied : Server := ⟨[(3, "alice".toList), (4, "bob".toList)], [("team".toList, [])]⟩

/-- A credential store with three users. -/
def demoTrio : UMap Str Str :=
  [("alice".toList, "pw1".toList), ("bob".toList, "pw2".toList), ("carol".toList, "pw3".toList)]

/-- `alice` on socket 3 and `bob` on socket 4 are both members of `team`, then
the session on socket 4 ended: socket 4 is still listed in `team`. -/
def demoGone : Server := ⟨[(3, "alice".toList)], [("team".toList, [3, 4])]⟩

/-- The state `demoGone` after `carol` logged in on a new connection that was
given descriptor 4 again. -/
def demoReuse : Server :=
  ⟨[(3, "alice".toList), (4, "carol".toList)], [("team".toList, [3, 4])]⟩

end ChatServer

/-!
# Handshake client (`src/A3/client.cpp`)

The raw-socket client that sends a SYN, waits for a SYN-ACK and answers with an
ACK.  A TCP header is modelled by the four fields the program reads or writes,
with `seq` and `ack_seq` holding the numbers that `ntohl` yields.  The buffer
handed to `compute_checksum` is modelled by the 16-bit words the function reads
through its `unsigned short *`, plus the odd last byte when there is one.
-/

namespace Handshake

/-- Source `#define CLIENT_SYN_SEQ 200`. -/
def CLIENT_SYN_SEQ : Nat := 200

/-- Source `#define SERVER_SYN_SEQ 400`. -/
def SERVER_SYN_SEQ : Nat := 400

/-- Source `#define CLIENT_ACK_SEQ 600`. -/
def CLIENT_ACK_SEQ : Nat := 600

/-- Source `#define TIMEOUT_SECONDS 5`. -/
def TIMEOUT_SECONDS : Int := 5

/-- The fields of `struct tcphdr` that the client sets or tests. -/
structure TcpHeader where
  syn : Bool
  ack : Bool
  seq : Nat
  ack_seq : Nat
  deriving DecidableEq

/-- What one pass of the wait loop of `main` observes (source lines 210-253):
the seconds elapsed, the result of `select`, and the header that
`receive_tcp_packet` stores (`none` when it returns false). -/
structure Pass where
  elapsed : Int
  sel : Int
  packet : Option TcpHeader

/-- The wait loop of `main` (source lines 210-253); the value is the flag
`valid_syn_ack` at its exit.  The list holds the passes made before the clock
runs out, so an exhausted list leaves the flag false. -/
def wait_syn_ack : List Pass → Bool
  | [] => false
  | p :: rest =>
    if p.elapsed ≥ TIMEOUT_SECONDS then false
    else if p.sel ≤ 0 then wait_syn_ack rest
    else
      match p.packet with
      | none => wait_syn_ack rest
      | some recv_tcp =>
        if recv_tcp.syn && recv_tcp.ack && (recv_tcp.ack_seq == CLIENT_SYN_SEQ + 1) then true
        else wait_syn_ack rest

/-- Source `main`: the packets sent, in order, and whether the handshake
completed (`[+] Handshake complete.`) rather than exiting with failure. -/
def handshake (passes : List Pass) : List TcpHeader × Bool :=
  if wait_syn_ack passes then
    ([⟨true, false, CLIENT_SYN_SEQ, 0⟩, ⟨false, true, CLIENT_ACK_SEQ, SERVER_SYN_SEQ + 1⟩], true)
  else
    ([⟨true, false, CLIENT_SYN_SEQ, 0⟩], false)

/-- The pass `p` with the sequence number of its received packet replaced by
`seq`; everything else the loop observes is kept. -/
def Pass.withSeq (p : Pass) (seq : Nat) : Pass :=
  ⟨p.elapsed, p.sel, p.packet.map (fun h => ⟨h.syn, h.ack, seq, h.ack_seq⟩)⟩

/-- A value stored into the `long sum` (64 bits, two's complement). -/
def wrapLong (x : Int) : Int :=
  (x + 9223372036854775808) % 18446744073709551616 - 9223372036854775808

/-- The loop `while (nbytes > 1) { sum += *ptr++; nbytes -= 2; }` of
`compute_checksum` over the 16-bit words of the buffer. -/
def sum_words (sum : Int) : List Nat → Int
  | [] => sum
  | w :: ws => sum_words (wrapLong (sum + w)) ws

/-- Source `compute_checksum` (lines 35-50).  The shift `sum >> 16` is the
division by 65536 rounding down, the mask `sum & 0xffff` the remainder, and
`(unsigned short)(~sum)` is `-sum - 1` reduced modulo 65536. -/
def compute_checksum (words : List Nat) (odd : Option Nat) : Nat :=
  let sum := sum_words 0 words
  let sum := match odd with
    | none => sum
    | some b => wrapLong (sum + b)
  let sum := wrapLong (sum / 65536 + sum % 65536)
  let sum := wrapLong (sum + sum / 65536)
  ((-sum - 1) % 65536).toNat

end Handshake

/-!
# Routing simulator (`src/A4/routing_sim.cpp`)

The distance-vector and link-state simulations over a cost matrix.  The input
matrix is a list of rows; the arrays the program writes (`dist`, `visited`) are
functions of their indices.  The `while (updated)` loop takes a bound on its
number of passes, and the theorems show that a bound exists that is never
reached.
-/

namespace Routing

/-- The constant `INF` of the source: the cost that stands for "no link". -/
def INF : Int := 9999

/-- The sum `a + b` of two `int` values: 32 bits, two's complement.  Signed
overflow is undefined in C++; the model takes the wrapped result. -/
def addInt (a b : Int) : Int := (a + b + 2147483648) % 4294967296 - 2147483648

/-- A `vector<vector<int>>` read from the input file. -/
abbrev Graph := List (List Int)

/-- The read `graph[i][j]`. -/
def Graph.cost (graph : Graph) (i j : Nat) : Int := (graph.getD i []).getD j 0

/-- A two-dimensional array of `int` that the program writes to (`dist`). -/
abbrev Table := Nat → Nat → Int

/-- The write `dist[i][k] = v`. -/
def Table.set (dist : Table) (i k : Nat) (v : Int) : Table :=
  fun a b => if a = i ∧ b = k then v else dist a b

/-- Body of the innermost loop of `simulateDVR` (source lines 70-79), acting on
`dist` and the flag `updated`.  The table `nextHop` is written here too but the
costs never depend on it; it is left out. -/
def relax (i j k : Nat) (s : Table × Bool) : Table × Bool :=
  if s.1 j k = INF then s
  else if addInt (s.1 i j) (s.1 j k) < s.1 i k then
    (Table.set s.1 i k (addInt (s.1 i j) (s.1 j k)), true)
  else s

/-- Body of the `j` loop of `simulateDVR` (source lines 66-80). -/
def relaxVia (graph : Graph) (n i j : Nat) (s : Table × Bool) : Table × Bool :=
  if i = j ∨ Graph.cost graph i j = INF then s
  else (List.range n).foldl (fun s k => relax i j k s) s

/-- One pass of the `while (updated)` loop (source lines 61-82): `updated` is
reset and the three nested loops run. -/
def dvrPass (graph : Graph) (n : Nat) (dist : Table) : Table × Bool :=
  (List.range n).foldl
    (fun s i => (List.range n).foldl (fun s j => relaxVia graph n i j s) s) (dist, false)

/-- The `while (updated)` loop with a bound on the number of passes; `none`
when the bound is used up before a pass leaves `updated` false. -/
def dvrLoop (graph : Graph) (n : Nat) : Nat → Table → Option Table
  | 0, _ => none
  | fuel + 1, dist =>
    if (dvrPass graph n dist).2 then dvrLoop graph n fuel (dvrPass graph n dist).1
    else some (dvrPass graph n dist).1

/-- The final cost table of `simulateDVR` (`dist` starts as a copy of `graph`). -/
def simulateDVR (graph : Graph) (fuel : Nat) : Option Table :=
  dvrLoop graph graph.length fuel (fun i j => Graph.cost graph i j)

/-- The arrays `dist` and `visited` of one run of Dijkstra in `simulateLSR`.
The array `prev` is written too but the costs never depend on it; it is left
out. -/
structure LsrState where
  dist : Nat → Int
  visited : Nat → Bool

/-- Body of the scan of source lines 133-139: `u` is `none` for `-1`; the node
`j` replaces `u` when it is unvisited and `u == -1 || dist[j] < dist[u]`. -/
def pickStep (s : LsrState) (u : Option Nat) (j : Nat) : Option Nat :=
  if s.visited j then u
  else match u with
    | none => some j
    | some u0 => if s.dist j < s.dist u0 then some j else some u0

/-- The scan of source lines 132-139: `none` stands for `u == -1`. -/
def pickMin (n : Nat) (s : LsrState) : Option Nat :=
  (List.range n).foldl (pickStep s) none

/-- Body of the `v` loop of `simulateLSR` (source lines 145-153). -/
def relaxFrom (graph : Graph) (u : Nat) (s : LsrState) (v : Nat) : LsrState :=
  if Graph.cost graph u v ≠ INF ∧ s.visited v = false then
    if addInt (s.dist u) (Graph.cost graph u v) < s.dist v then
      ⟨fun x => if x = v then addInt (s.dist u) (Graph.cost graph u v) else s.dist x, s.visited⟩
    else s
  else s

/-- The loop `for (int i = 0; i < n; ++i)` of `simulateLSR` with `m` iterations
left (source lines 130-155); the two `break` conditions end it early. -/
def lsrLoop (graph : Graph) (n : Nat) : Nat → LsrState → LsrState
  | 0, s => s
  | m + 1, s =>
    match pickMin n s with
    | none => s
    | some u =>
      if s.dist u = INF then s
      else
        lsrLoop graph n m
          ((List.range n).foldl (relaxFrom graph u)
            ⟨s.dist, fun x => if x = u then true else s.visited x⟩)

/-- The array `dist` that `simulateLSR` computes for the source `src`. -/
def simulateLSR (graph : Graph) (src : Nat) : Nat → Int :=
  (lsrLoop graph graph.length graph.length
    ⟨fun v => if v = src then 0 else INF, fun _ => false⟩).dist

/-- A walk along links of `graph` from `i` to `k` with total cost `c`. -/
inductive Walk (graph : Graph) : Nat → Nat → Int → Prop
  | nil (i : Nat) (hi : i < graph.length) : Walk graph i i 0
  | cons (i j k : Nat) (c : Int) (hi : i < graph.length) (hj : j < graph.length)
      (hlink : Graph.cost graph i j ≠ INF) (h : Walk graph j k c) :
      Walk graph i k (Graph.cost graph i j + c)

/-- The cost `d` is the least cost of a walk from `i` to `k`. -/
def LeastCost (graph : Graph) (i k : Nat) (d : Int) : Prop :=
  Walk graph i k d ∧ ∀ c, Walk graph i k c → d ≤ c

/-- An `n`×`n` cost matrix with zero diagonal and entries in `[0, 9999]`. -/
def CostMatrix (graph : Graph) : Prop :=
  (∀ row ∈ graph, row.length = graph.length) ∧
  ∀ i < graph.length, Graph.cost graph i i = 0 ∧
    ∀ j < graph.length, 0 ≤ Graph.cost graph i j ∧ Graph.cost graph i j ≤ 9999

/-- No relaxation through a direct neighbour lowers an entry of `dist`. -/
def Stable (graph : Graph) (dist : Table) : Prop :=
  ∀ i < graph.length, ∀ j < graph.length, ∀ k < graph.length,
    i ≠ j → Graph.cost graph i j ≠ INF → dist j k ≠ INF →
    ¬ addInt (dist i j) (dist j k) < dist i k

/-- The measure that every changing pass lowers. -/
def weight (n : Nat) (dist : Table) : Nat :=
  ∑ p in Finset.range n ×ˢ Finset.range n, (dist p.1 p.2 + 2147483648).toNat

/-- A line of three nodes: links 0-1 of cost 1 and 1-2 of cost 2. -/
def demoGraph : Graph := [[0, 1, 9999], [1, 0, 2], [9999, 2, 0]]

/-- What every piece of a pass does to the pair (table, flag). -/
def Sound (n : Nat) (T : Table × Bool → Table × Bool) : Prop :=
  ∀ s, weight n (T s).1 ≤ weight n s.1 ∧
    ((T s).2 = true → s.2 = true ∨ weight n (T s).1 < weight n s.1) ∧
    ((T s).2 = false → T s = s)

/-- The relaxation of `dist[i][k]` through `j` would change nothing. -/
def Quiet (d : Table) (i j k : Nat) : Prop :=
  d j k ≠ INF → ¬ addInt (d i j) (d j k) < d i k

/-- When the flag is still false afterwards, every triple in `R` was quiet. -/
def Covers (T : Table × Bool → Table × Bool) (R : Nat → Nat → Nat → Prop) : Prop :=
  ∀ s, (T s).2 = false → ∀ i j k, R i j k → Quiet s.1 i j k

/-- What holds of `dist` throughout `simulateDVR` on a cost matrix. -/
def DvrInv (graph : Graph) (d : Table) : Prop :=
  ∀ i < graph.length, ∀ k < graph.length,
    0 ≤ d i k ∧ d i k ≤ Graph.cost graph i k ∧ (d i k < INF → Walk graph i k (d i k))

/-- The piece `T` of a pass keeps the property `P` of the table. -/
def Keeps (P : Table → Prop) (T : Table × Bool → Table × Bool) : Prop :=
  ∀ s, P s.1 → P (T s).1

/-- What holds of `dist` and `visited` before every iteration of the main loop of
Dijkstra from `src`. -/
structure LsrInv (graph : Graph) (src : Nat) (s : LsrState) : Prop where
  range : ∀ v < graph.length, 0 ≤ s.dist v ∧ s.dist v ≤ INF
  walk : ∀ v < graph.length, s.dist v < INF → Walk graph src v (s.dist v)
  src0 : s.dist src = 0
  edge : ∀ u < graph.length, ∀ v < graph.length, s.visited u = true →
    Graph.cost graph u v ≠ INF → s.dist v ≤ s.dist u + Graph.cost graph u v
  order : ∀ u < graph.length, ∀ v < graph.length, s.visited u = true →
    s.visited v = false → s.dist u ≤ s.dist v

/-- Number of nodes not yet visited. -/
def unvisited (n : Nat) (s : LsrState) : Nat :=
  ((Finset.range n).filter (fun v => s.visited v = false)).card

end Routing

namespace ChatServer

/-! ## Strings: lemmas -/

theorem findChar_eq_none {ch : Char} {s : Str} : findChar ch s = none ↔ ch ∉ s := by
  induction s with
  | nil => simp [findChar]
  | cons x xs ih =>
    by_cases h : x = ch
    · simp [findChar, h]
    · simp [findChar, h, ih, Ne.symm h]

theorem contains_space_eq_false {s : Str} : contains_space s = false ↔ ' ' ∉ s := by
  simp [contains_space, find, findChar_eq_none]

theorem findChar_append_cons {ch : Char} {g : Str} (t : Str) (h : ch ∉ g) :
    findChar ch (g ++ ch :: t) = some g.length := by
  induction g with
  | nil => simp [findChar]
  | cons x xs ih =>
    have hx : x ≠ ch := fun e => h (by simp [e])
    have hxs : ch ∉ xs := fun e => h (by simp [e])
    simp [findChar, hx, ih hxs]

theorem find_field (pre g t : Str) (h : contains_space g = false) :
    find (pre ++ g ++ ' ' :: t) ' ' pre.length = some (pre.length + g.length) := by
  simp [find, findChar_append_cons t (contains_space_eq_false.mp h), Nat.add_comm]

theorem substr_field (pre g t : Str) :
    substr (pre ++ g ++ ' ' :: t) pre.length (pre.length + g.length - pre.length) = g := by
  simp [substr]

theorem substrFrom_field (pre g t : Str) :
    substrFrom (pre ++ g ++ ' ' :: t) (pre.length + g.length + 1) = t := by
  have : pre ++ g ++ ' ' :: t = (pre ++ g ++ [' ']) ++ t := by simp
  rw [this, substrFrom]
  exact List.drop_left' (by simp; omega)


/-! ## Containers: lemmas -/

namespace UMap
variable {K V : Type} [DecidableEq K]

theorem find_eq_none_iff {m : UMap K V} {k : K} : find m k = none ↔ k ∉ m.map Prod.fst := by
  induction m with
  | nil => simp [find]
  | cons e rest ih =>
    obtain ⟨k', v⟩ := e
    by_cases h : k' = k
    · simp [find, h]
    · simp [find, h, ih, Ne.symm h]

theorem mem_of_find {m : UMap K V} {k : K} {v : V} (h : find m k = some v) : (k, v) ∈ m := by
  induction m with
  | nil => simp [find] at h
  | cons e rest ih =>
    obtain ⟨k', v'⟩ := e
    by_cases hk : k' = k
    · simp [find, hk] at h
      simp [hk, h]
    · simp [find, hk] at h
      exact List.mem_cons_of_mem _ (ih h)

theorem find_assign_self (m : UMap K V) (k : K) (v : V) : find (assign m k v) k = some v := by
  induction m with
  | nil => simp [assign, find]
  | cons e rest ih =>
    obtain ⟨k', v'⟩ := e
    by_cases hk : k' = k
    · simp [assign, find, hk]
    · simp [assign, find, hk, ih]

theorem find_assign_ne (m : UMap K V) {k k2 : K} (v : V) (h : k2 ≠ k) :
    find (assign m k v) k2 = find m k2 := by
  induction m with
  | nil => simp [assign, find, Ne.symm h]
  | cons e rest ih =>
    obtain ⟨k', v'⟩ := e
    by_cases hk : k' = k
    · subst hk
      simp [assign, find, Ne.symm h]
    · by_cases hk2 : k' = k2
      · subst hk2
        simp [assign, find, hk]
      · simp [assign, find, hk, hk2, ih]

theorem keys_assign (m : UMap K V) (k : K) (v : V) :
    (assign m k v).map Prod.fst =
      if k ∈ m.map Prod.fst then m.map Prod.fst else m.map Prod.fst ++ [k] := by
  induction m with
  | nil => simp [assign]
  | cons e rest ih =>
    obtain ⟨k', v'⟩ := e
    by_cases hk : k' = k
    · simp [assign, hk]
    · simp only [assign, hk, if_false, List.map_cons, ih, List.mem_cons, Ne.symm hk, false_or]
      split_ifs <;> simp

theorem mem_assign {m : UMap K V} {k : K} {v : V} {e : K × V} (h : e ∈ assign m k v) :
    e = (k, v) ∨ e ∈ m := by
  induction m with
  | nil => simp [assign] at h; exact Or.inl h
  | cons e' rest ih =>
    obtain ⟨k', v'⟩ := e'
    by_cases hk : k' = k
    · subst hk
      simp [assign] at h
      rcases h with h | h
      · exact Or.inl h
      · exact Or.inr (List.mem_cons_of_mem _ h)
    · simp [assign, hk] at h
      rcases h with h | h
      · right; subst h; simp
      · rcases ih h with h | h
        · exact Or.inl h
        · exact Or.inr (List.mem_cons_of_mem _ h)

theorem index_of_find {m : UMap K V} {k : K} {v : V} (d : V) (h : find m k = some v) :
    index m k d = (m, v) := by
  simp [index, h]

theorem count_eq_zero {m : UMap K V} {k : K} : count m k = 0 ↔ find m k = none := by
  unfold count
  cases find m k <;> simp

theorem nodup_keys_assign {m : UMap K V} (k : K) (v : V) (h : (m.map Prod.fst).Nodup) :
    ((assign m k v).map Prod.fst).Nodup := by
  rw [keys_assign]
  split_ifs with hk
  · exact h
  · exact List.Nodup.append h (List.nodup_singleton k) (by simpa using hk)

theorem nodup_keys_erase {m : UMap K V} (k : K) (h : (m.map Prod.fst).Nodup) :
    ((erase m k).map Prod.fst).Nodup :=
  List.Nodup.sublist (List.Sublist.map _ (List.filter_sublist _)) h

theorem mem_erase {m : UMap K V} {k : K} {e : K × V} (h : e ∈ erase m k) : e ∈ m :=
  List.mem_of_mem_filter h

end UMap

/-! ## The client registry -/

theorem clientsInv_assign {clients : UMap Int Str} {c : Int} {u : Str}
    (h : ClientsInv clients) (hc : 0 ≤ c)
    (hfresh : clients.any (fun client => client.2 = u) = false) :
    ClientsInv (UMap.assign clients c u) := by
  obtain ⟨h1, h2, h3⟩ := h
  have hno : ∀ e ∈ clients, e.2 ≠ u := by
    intro e he heq
    have : clients.any (fun client => client.2 = u) = true :=
      List.any_eq_true.mpr ⟨e, he, by simp [heq]⟩
    rw [hfresh] at this
    exact Bool.noConfusion this
  refine ⟨UMap.nodup_keys_assign c u h1, ?_, ?_⟩
  · intro e he
    rcases UMap.mem_assign he with rfl | he
    · exact hc
    · exact h2 e he
  · intro e1 he1 e2 he2 heq
    rcases UMap.mem_assign he1 with rfl | he1 <;> rcases UMap.mem_assign he2 with rfl | he2
    · rfl
    · exact absurd heq.symm (hno e2 he2)
    · exact absurd heq (hno e1 he1)
    · exact h3 e1 he1 e2 he2 heq

theorem clientsInv_erase {clients : UMap Int Str} (c : Int) (h : ClientsInv clients) :
    ClientsInv (UMap.erase clients c) := by
  obtain ⟨h1, h2, h3⟩ := h
  exact ⟨UMap.nodup_keys_erase c h1, fun e he => h2 e (UMap.mem_erase he),
    fun e1 he1 e2 he2 => h3 e1 (UMap.mem_erase he1) e2 (UMap.mem_erase he2)⟩

theorem command_clients (st : Server) (c : Int) (u m : Str) :
    (handle_client_command st c u m).st.clients = st.clients := by
  unfold handle_client_command
  split_ifs
  · rfl
  · rfl
  · unfold cmd_msg; split
    · rfl
    · simp only; split_ifs <;> rfl
  · unfold cmd_broadcast; simp only; split_ifs <;> rfl
  · unfold cmd_create_group; simp only; split_ifs <;> rfl
  · unfold cmd_join_group; simp only; split_ifs <;> rfl
  · unfold cmd_group_msg; split_ifs
    · rfl
    · split
      · rfl
      · simp only; split_ifs <;> rfl
  · unfold cmd_leave_group; simp only; split_ifs <;> rfl
  · rfl

theorem auth_clientsInv (users : UMap Str Str) (st : Server) (c : Int) (u p : Str)
    (hc : 0 ≤ c) (h : ClientsInv st.clients) :
    ClientsInv (handle_client_auth users st c u p).st.clients := by
  unfold handle_client_auth
  split_ifs with hv hd
  · exact h
  · exact clientsInv_assign h hc ((Bool.not_eq_true _).mp hd)
  · exact h

theorem step_clientsInv (st : Server) (c : Int) (u : Str) (recv : Option Str)
    (h : ClientsInv st.clients) : ClientsInv (handle_client_step st c u recv).st.clients := by
  unfold handle_client_step
  cases recv with
  | none => exact clientsInv_erase c h
  | some m =>
    simp only
    split_ifs
    · simp only [handle_client_disconnect, command_clients]
      exact clientsInv_erase c h
    · rw [command_clients]; exact h

/-! ## The group registry -/

theorem USet.nodup_insert {s : USet} (x : Int) (h : s.Nodup) : (USet.insert s x).Nodup := by
  unfold USet.insert
  split_ifs with hx
  · exact h
  · exact List.Nodup.append h (List.nodup_singleton x) (by simpa using hx)

theorem USet.nodup_erase {s : USet} (x : Int) (h : s.Nodup) : (USet.erase s x).Nodup :=
  List.Nodup.sublist (List.filter_sublist _) h

theorem groupsInv_assign {groups : UMap Str USet} {g : Str} {vs : USet}
    (h : GroupsInv groups) (hvs : vs.Nodup) (hne : g ≠ []) (hsp : contains_space g = false) :
    GroupsInv (UMap.assign groups g vs) := by
  refine ⟨UMap.nodup_keys_assign g vs h.1, ?_⟩
  intro e he
  rcases UMap.mem_assign he with rfl | he
  · exact ⟨hvs, hne, hsp⟩
  · exact h.2 e he

theorem groupsInv_find {groups : UMap Str USet} {g : Str} {mem : USet}
    (h : GroupsInv groups) (hg : UMap.find groups g = some mem) :
    mem.Nodup ∧ g ≠ [] ∧ contains_space g = false :=
  h.2 (g, mem) (UMap.mem_of_find hg)

theorem UMap.exists_find_of_count {K V : Type} [DecidableEq K] {m : UMap K V} {k : K}
    (h : ¬ UMap.count m k = 0) : ∃ v, UMap.find m k = some v := by
  rw [UMap.count_eq_zero] at h
  exact Option.ne_none_iff_exists'.mp h

theorem create_groupsInv (st : Server) (c : Int) (m : Str) (h : GroupsInv st.groups) :
    GroupsInv (cmd_create_group st c m).st.groups := by
  unfold cmd_create_group
  simp only
  split_ifs with h1 h2 h3 h4
  · exact h
  · exact h
  · exact h
  · have hne : substrFrom m 14 ≠ [] := by simpa using h2
    have hsp : contains_space (substrFrom m 14) = false := by simpa using h3
    rw [UMap.count_eq_zero] at h4
    simp only [reply, UMap.index, h4]
    exact groupsInv_assign (groupsInv_assign h List.nodup_nil hne hsp)
      (USet.nodup_insert c List.nodup_nil) hne hsp
  · exact h

theorem join_groupsInv (st : Server) (c : Int) (m : Str) (h : GroupsInv st.groups) :
    GroupsInv (cmd_join_group st c m).st.groups := by
  unfold cmd_join_group
  simp only
  split_ifs with h1 h2 h3 h4
  · exact h
  · exact h
  · exact h
  · obtain ⟨mem, hm⟩ := UMap.exists_find_of_count h3
    simp only [reply, UMap.index_of_find [] hm]
    exact h
  · obtain ⟨mem, hm⟩ := UMap.exists_find_of_count h3
    obtain ⟨hnd, hne, hsp⟩ := groupsInv_find h hm
    simp only [reply, UMap.index_of_find [] hm]
    exact groupsInv_assign h (USet.nodup_insert c hnd) hne hsp

theorem leave_groupsInv (st : Server) (c : Int) (m : Str) (h : GroupsInv st.groups) :
    GroupsInv (cmd_leave_group st c m).st.groups := by
  unfold cmd_leave_group
  simp only
  split_ifs with h1 h2 h3 h4
  · exact h
  · exact h
  · obtain ⟨mem, hm⟩ := UMap.exists_find_of_count h3
    obtain ⟨hnd, hne, hsp⟩ := groupsInv_find h hm
    simp only [reply, UMap.index_of_find [] hm]
    exact groupsInv_assign h (USet.nodup_erase c hnd) hne hsp
  · obtain ⟨mem, hm⟩ := UMap.exists_find_of_count h3
    simp only [reply, UMap.index_of_find [] hm]
    exact h
  · exact h

theorem group_message_groups {groups : UMap Str USet} {g : Str} {mem : USet}
    (c : Int) (t : Str) (hg : UMap.find groups g = some mem) :
    (group_message groups c g t).1 = groups := by
  simp [group_message, UMap.index_of_find [] hg]

theorem group_msg_groupsInv (st : Server) (c : Int) (m : Str) (h : GroupsInv st.groups) :
    GroupsInv (cmd_group_msg st c m).st.groups := by
  unfold cmd_group_msg
  split_ifs with h1
  · exact h
  · split
    · exact h
    · simp only
      split_ifs with h2 h3 h4
      · exact h
      · exact h
      · obtain ⟨mem, hm⟩ := UMap.exists_find_of_count h3
        simp only [UMap.index_of_find [] hm]
        rw [group_message_groups _ _ hm]
        exact h
      · obtain ⟨mem, hm⟩ := UMap.exists_find_of_count h3
        simp only [reply, UMap.index_of_find [] hm]
        exact h

theorem msg_groups (st : Server) (c : Int) (u m : Str) :
    (cmd_msg st c u m).st.groups = st.groups := by
  unfold cmd_msg; split
  · rfl
  · simp only; split_ifs <;> rfl

theorem broadcast_groups (st : Server) (c : Int) (u m : Str) :
    (cmd_broadcast st c u m).st.groups = st.groups := by
  unfold cmd_broadcast; simp only; split_ifs <;> rfl

theorem command_groupsInv (st : Server) (c : Int) (u m : Str) (h : GroupsInv st.groups) :
    GroupsInv (handle_client_command st c u m).st.groups := by
  unfold handle_client_command
  split_ifs
  · exact h
  · exact h
  · rw [msg_groups]; exact h
  · rw [broadcast_groups]; exact h
  · exact create_groupsInv st c m h
  · exact join_groupsInv st c m h
  · exact group_msg_groupsInv st c m h
  · exact leave_groupsInv st c m h
  · exact h

theorem auth_groups (users : UMap Str Str) (st : Server) (c : Int) (u p : Str) :
    (handle_client_auth users st c u p).st.groups = st.groups := by
  unfold handle_client_auth
  split_ifs <;> rfl

theorem step_groupsInv (st : Server) (c : Int) (u : Str) (recv : Option Str)
    (h : GroupsInv st.groups) : GroupsInv (handle_client_step st c u recv).st.groups := by
  unfold handle_client_step
  cases recv with
  | none => exact h
  | some m =>
    simp only
    split_ifs
    · exact command_groupsInv st c u m h
    · exact command_groupsInv st c u m h

theorem reachableFrom_clientsInv {users : UMap Str Str} {s0 st : Server}
    (h0 : ClientsInv s0.clients) (h : ReachableFrom users s0 st) : ClientsInv st.clients := by
  induction h with
  | start => exact h0
  | auth c u p _ hc ih => exact auth_clientsInv users _ c u p hc ih
  | step c u recv _ _ ih => exact step_clientsInv _ c u recv ih

theorem reachableFrom_groupsInv {users : UMap Str Str} {s0 st : Server}
    (h0 : GroupsInv s0.groups) (h : ReachableFrom users s0 st) : GroupsInv st.groups := by
  induction h with
  | start => exact h0
  | auth c u p _ hc ih => rw [auth_groups]; exact ih
  | step c u recv _ _ ih => exact step_groupsInv _ c u recv ih

theorem clientsInv_nil : ClientsInv [] := by
  refine ⟨List.nodup_nil, ?_, ?_⟩ <;> simp

theorem groupsInv_nil : GroupsInv [] := by
  refine ⟨List.nodup_nil, ?_⟩; simp

/-! ## Reachable states and fan-out -/

theorem demoPair_reachable : Reachable demoUsers demoPair :=
  ReachableFrom.auth 4 "bob".toList "pw2".toList
    (ReachableFrom.auth 3 "alice".toList "pw1".toList ReachableFrom.start (by decide)) (by decide)

theorem demoSolo_reachable : Reachable demoUsers demoSolo :=
  ReachableFrom.step 3 "alice".toList (some "/create_group team".toList) demoPair_reachable
    (by decide)

theorem demoTeam_reachable : Reachable demoUsers demoTeam :=
  ReachableFrom.step 4 "bob".toList (some "/join_group team".toList) demoSolo_reachable
    (by decide)

theorem reachable_clientsInv {users : UMap Str Str} {st : Server} (h : Reachable users st) :
    ClientsInv st.clients := reachableFrom_clientsInv clientsInv_nil h

theorem reachable_groupsInv {users : UMap Str Str} {st : Server} (h : Reachable users st) :
    GroupsInv st.groups := reachableFrom_groupsInv groupsInv_nil h

theorem filter_eq_of_nodup (l : List Int) (hnd : l.Nodup) (c : Int) :
    l.filter (fun m => m = c) = if c ∈ l then [c] else [] := by
  induction l with
  | nil => simp
  | cons x xs ih =>
    rw [List.nodup_cons] at hnd
    by_cases hx : x = c
    · subst hx
      simp [List.filter_cons, ih hnd.2, hnd.1]
    · simp [List.filter_cons, hx, ih hnd.2, Ne.symm hx]

theorem received_fanout (l : List Int) (hnd : l.Nodup) (s c : Int) (msg : Str) :
    received c ((l.filter (fun m => m ≠ s)).map (fun m => (m, msg)))
      = if c ∈ l ∧ c ≠ s then [msg] else [] := by
  unfold received
  rw [List.filter_map, List.map_map]
  have hnd2 : (l.filter (fun m => m ≠ s)).Nodup := List.Nodup.sublist (List.filter_sublist _) hnd
  have hf : List.filter ((fun m : Send => decide (m.1 = c)) ∘ fun m => (m, msg))
      (l.filter (fun m => m ≠ s)) = (l.filter (fun m => m ≠ s)).filter (fun m => m = c) := rfl
  rw [hf, filter_eq_of_nodup _ hnd2]
  by_cases h : c ∈ l ∧ c ≠ s
  · simp [h]
  · simp only [h, if_false]
    have : c ∉ l.filter (fun m => m ≠ s) := by
      simp only [List.mem_filter, decide_eq_true_eq]
      exact h
    rw [if_neg this]
    rfl

theorem fanout_clients (clients : UMap Int Str) (s : Int) (msg : Str) :
    (clients.filter (fun client => client.1 ≠ s)).map (fun client => (client.1, msg))
      = ((clients.map Prod.fst).filter (fun m => m ≠ s)).map (fun m => (m, msg)) := by
  rw [List.filter_map, List.map_map]
  rfl


theorem target_socket_absent (clients : UMap Int Str) (T : Str)
    (h : ∀ e ∈ clients, e.2 ≠ T) : target_socket clients T = -1 := by
  induction clients with
  | nil => rfl
  | cons e rest ih =>
    obtain ⟨fd, name⟩ := e
    have hne : name ≠ T := h (fd, name) (List.mem_cons_self _ _)
    simp only [target_socket, hne, if_false]
    exact ih (fun e he => h e (List.mem_cons_of_mem _ he))

theorem target_socket_mem (clients : UMap Int Str) (T : Str) (r : Int)
    (h : (r, T) ∈ clients) : (target_socket clients T, T) ∈ clients := by
  induction clients with
  | nil => simp at h
  | cons e rest ih =>
    obtain ⟨fd, name⟩ := e
    by_cases hn : name = T
    · simp [target_socket, hn]
    · have hr : (r, T) ∈ rest := by
        rcases List.mem_cons.mp h with h | h
        · exact absurd (congrArg Prod.snd h).symm hn
        · exact h
      simp only [target_socket, hn, if_false]
      exact List.mem_cons_of_mem _ (ih hr)

theorem target_socket_eq {clients : UMap Int Str} (hinv : ClientsInv clients) {T : Str} {r : Int}
    (h : (r, T) ∈ clients) : target_socket clients T = r :=
  hinv.2.2 _ (target_socket_mem clients T r h) _ h rfl

/-- C1: in every state reached from an empty client registry (whatever the group
registry is at the start) by authentication attempts, command lines and
disconnects, two distinct sockets never carry the same username. -/
theorem unique_usernames (users : UMap Str Str) (g0 : UMap Str USet) (st : Server)
    (hreach : ReachableFrom users ⟨[], g0⟩ st) (c1 c2 : Int) (u : Str)
    (hne : c1 ≠ c2) (h1 : (c1, u) ∈ st.clients) : (c2, u) ∉ st.clients := by
  intro h2
  exact hne ((reachableFrom_clientsInv clientsInv_nil hreach).2.2 _ h1 _ h2 rfl)

theorem unique_usernames_witness :
    (3, "alice".toList) ∈ demoPair.clients ∧ (4, "alice".toList) ∉ demoPair.clients :=
  ⟨by decide, unique_usernames demoUsers [] demoPair demoPair_reachable 3 4 "alice".toList
    (by decide) (by decide)⟩

theorem parse_group_msg (g t : Str) (hsp : contains_space g = false) :
    find ("/group_msg ".toList ++ g ++ " ".toList ++ t) ' ' 11 = some (11 + g.length) ∧
    substr ("/group_msg ".toList ++ g ++ " ".toList ++ t) 11 (11 + g.length - 11) = g ∧
    substrFrom ("/group_msg ".toList ++ g ++ " ".toList ++ t) (11 + g.length + 1) = t := by
  have hf := find_field "/group_msg ".toList g t hsp
  have h1 := substr_field "/group_msg ".toList g t
  have h2 := substrFrom_field "/group_msg ".toList g t
  simp only [String.toList, List.length_cons, List.length_nil, List.cons_append, List.nil_append,
    List.append_assoc] at hf h1 h2 ⊢
  exact ⟨hf, h1, h2⟩

theorem command_group_msg (st : Server) (s : Int) (username g t : Str)
    (hsp : contains_space g = false) (ht : t ≠ []) :
    handle_client_command st s username ("/group_msg ".toList ++ g ++ " ".toList ++ t)
      = if UMap.count st.groups g = 0 then
          reply st s ("Error: Group \"".toList ++ g ++ "\" does not exist.\n".toList)
        else if s ∉ (UMap.index st.groups g []).2 then
          reply ⟨st.clients, (UMap.index st.groups g []).1⟩ s
            ("Error: Not a member of group \"".toList ++ g ++ "\".\n".toList)
        else
          ⟨⟨st.clients, (group_message (UMap.index st.groups g []).1 s g t).1⟩,
            (group_message (UMap.index st.groups g []).1 s g t).2, false⟩ := by
  obtain ⟨hf, h1, h2⟩ := parse_group_msg g t hsp
  have e1 : substr ("/group_msg ".toList ++ g ++ " ".toList ++ t) 0 10 = "/group_msg".toList := by
    simp [substr]
  unfold handle_client_command
  rw [if_neg (by simp), if_neg (by simp), if_neg (by simp [substr]), if_neg (by simp [substr]),
    if_neg (by simp [substr]), if_neg (by simp [substr]), if_pos e1]
  unfold cmd_group_msg
  rw [if_neg (by simp), hf]
  simp only [h1, h2]
  rw [if_neg (by simpa using ht)]


/-- C2: in a reachable state where group `g` exists with member set `members`
and the sender `s` is a member, the line `/group_msg g t` with `t` non-empty
leaves both registries as they are, keeps the session in the loop, and every
socket `c` is sent exactly `[Group g]: t\n` once when it is a member other
than `s`, and nothing otherwise. -/
theorem group_msg_delivery (users : UMap Str Str) (st : Server) (hreach : Reachable users st)
    (s : Int) (username g t : Str) (members : USet)
    (hg : UMap.find st.groups g = some members) (hs : s ∈ members) (ht : t ≠ []) :
    (handle_client_command st s username ("/group_msg ".toList ++ g ++ " ".toList ++ t)).st = st ∧
    (handle_client_command st s username
        ("/group_msg ".toList ++ g ++ " ".toList ++ t)).closed = false ∧
    ∀ c : Int,
      received c (handle_client_command st s username
          ("/group_msg ".toList ++ g ++ " ".toList ++ t)).out
        = if c ∈ members ∧ c ≠ s then ["[Group ".toList ++ g ++ "]: ".toList ++ t ++ "\n".toList]
          else [] := by
  obtain ⟨hnd, _, hsp⟩ := groupsInv_find (reachable_groupsInv hreach) hg
  have hc : ¬ UMap.count st.groups g = 0 := by
    rw [UMap.count_eq_zero, hg]; simp
  rw [command_group_msg st s username g t hsp ht, if_neg hc, UMap.index_of_find [] hg,
    if_neg (by simpa using hs)]
  refine ⟨?_, rfl, ?_⟩
  · simp only [group_message_groups s t hg]
  · intro c
    simp only [group_message, UMap.index_of_find [] hg]
    exact received_fanout members hnd s c _

theorem group_msg_delivery_witness :
    (handle_client_command demoTeam 3 "alice".toList "/group_msg team hello".toList).st = demoTeam ∧
    received 4 (handle_client_command demoTeam 3 "alice".toList
      "/group_msg team hello".toList).out = ["[Group team]: hello\n".toList] ∧
    received 3 (handle_client_command demoTeam 3 "alice".toList
      "/group_msg team hello".toList).out = [] :=
  have h := group_msg_delivery demoUsers demoTeam demoTeam_reachable 3 "alice".toList
    "team".toList "hello".toList [3, 4] (by decide) (by decide) (by decide)
  ⟨h.1, h.2.2 4, h.2.2 3⟩

/-- C3: in a reachable state where group `g` exists and the sender `s` is not a
member, the line `/group_msg g t` with `t` non-empty makes one send only, the
not-a-member error to `s`, and changes neither registry. -/
theorem group_msg_not_member (users : UMap Str Str) (st : Server) (hreach : Reachable users st)
    (s : Int) (username g t : Str) (members : USet)
    (hg : UMap.find st.groups g = some members) (hs : s ∉ members) (ht : t ≠ []) :
    handle_client_command st s username ("/group_msg ".toList ++ g ++ " ".toList ++ t)
      = ⟨st, [(s, "Error: Not a member of group \"".toList ++ g ++ "\".\n".toList)], false⟩ := by
  obtain ⟨_, _, hsp⟩ := groupsInv_find (reachable_groupsInv hreach) hg
  have hc : ¬ UMap.count st.groups g = 0 := by
    rw [UMap.count_eq_zero, hg]; simp
  rw [command_group_msg st s username g t hsp ht, if_neg hc, UMap.index_of_find [] hg,
    if_pos (by simpa using hs)]
  rfl

theorem group_msg_not_member_witness :
    handle_client_command demoSolo 4 "bob".toList "/group_msg team hello".toList
      = ⟨demoSolo, [(4, "Error: Not a member of group \"team\".\n".toList)], false⟩ :=
  group_msg_not_member demoUsers demoSolo demoSolo_reachable 4 "bob".toList
    "team".toList "hello".toList [3] (by decide) (by decide) (by decide)


/-- C4: whenever no socket is listed twice in the client registry, the line
`/broadcast t` with `t` non-empty from socket `s` under name `U` leaves both
registries as they are, and every socket `c` is sent exactly
`[U] (Broadcast): t\n` once when it is registered and differs from `s`, and
nothing otherwise. -/
theorem broadcast_delivery (st : Server) (hwf : (st.clients.map Prod.fst).Nodup)
    (s : Int) (U t : Str) (ht : t ≠ []) :
    (handle_client_command st s U ("/broadcast ".toList ++ t)).st = st ∧
    (handle_client_command st s U ("/broadcast ".toList ++ t)).closed = false ∧
    ∀ c : Int,
      received c (handle_client_command st s U ("/broadcast ".toList ++ t)).out
        = if c ∈ st.clients.map Prod.fst ∧ c ≠ s then
            ["[".toList ++ U ++ "] (Broadcast): ".toList ++ t ++ "\n".toList]
          else [] := by
  have e1 : substr ("/broadcast ".toList ++ t) 0 10 = "/broadcast".toList := by
    simp [substr]
  have e2 : substrFrom ("/broadcast ".toList ++ t) 11 = t := by
    simp [substrFrom]
  unfold handle_client_command
  rw [if_neg (by simp), if_neg (by simp), if_neg (by simp [substr]), if_pos e1]
  unfold cmd_broadcast
  rw [if_neg (by simp)]
  simp only [e2]
  rw [if_neg (by simpa using ht)]
  refine ⟨rfl, rfl, ?_⟩
  intro c
  simp only [fanout_clients]
  exact received_fanout _ hwf s c _

theorem broadcast_delivery_witness :
    received 4 (handle_client_command demoPair 3 "alice".toList "/broadcast hi all".toList).out
      = ["[alice] (Broadcast): hi all\n".toList] ∧
    received 3 (handle_client_command demoPair 3 "alice".toList "/broadcast hi all".toList).out
      = [] :=
  have h := broadcast_delivery demoPair (by decide) 3 "alice".toList "hi all".toList (by decide)
  ⟨h.2.2 4, h.2.2 3⟩

theorem parse_msg (T t : Str) (hsp : contains_space T = false) :
    find ("/msg ".toList ++ T ++ " ".toList ++ t) ' ' 5 = some (5 + T.length) ∧
    substr ("/msg ".toList ++ T ++ " ".toList ++ t) 5 (5 + T.length - 5) = T ∧
    substrFrom ("/msg ".toList ++ T ++ " ".toList ++ t) (5 + T.length + 1) = t := by
  have hf := find_field "/msg ".toList T t hsp
  have h1 := substr_field "/msg ".toList T t
  have h2 := substrFrom_field "/msg ".toList T t
  simp only [String.toList, List.length_cons, List.length_nil, List.cons_append, List.nil_append,
    List.append_assoc] at hf h1 h2 ⊢
  exact ⟨hf, h1, h2⟩

theorem command_msg (st : Server) (s : Int) (username T t : Str)
    (hsp : contains_space T = false) (ht : t ≠ []) :
    handle_client_command st s username ("/msg ".toList ++ T ++ " ".toList ++ t)
      = if target_socket st.clients T ≠ -1 then
          if target_socket st.clients T = s then
            reply st s "Error: Cannot send a private message to yourself.\n".toList
          else
            ⟨st, [(target_socket st.clients T,
              "[".toList ++ username ++ "]: ".toList ++ t ++ "\n".toList)], false⟩
        else
          reply st s ("Error: User \"".toList ++ T ++ "\" not found.\n".toList) := by
  obtain ⟨hf, h1, h2⟩ := parse_msg T t hsp
  have e1 : substr ("/msg ".toList ++ T ++ " ".toList ++ t) 0 4 = "/msg".toList := by
    simp [substr]
  unfold handle_client_command
  rw [if_neg (by simp), if_neg (by simp), if_pos e1]
  unfold cmd_msg
  rw [hf]
  simp only [h1, h2]
  rw [if_neg (by simpa using ht)]

/-- C5: in a reachable state, a session `s` registered under a space-free name
`U` that sends `/msg U t` with `t` non-empty gets the cannot-message-yourself
error as the only send of the step, and nothing changes. -/
theorem msg_self (users : UMap Str Str) (st : Server) (hreach : Reachable users st)
    (s : Int) (U t : Str) (hs : UMap.find st.clients s = some U)
    (hU : contains_space U = false) (ht : t ≠ []) :
    handle_client_command st s U ("/msg ".toList ++ U ++ " ".toList ++ t)
      = ⟨st, [(s, "Error: Cannot send a private message to yourself.\n".toList)], false⟩ := by
  have hinv := reachable_clientsInv hreach
  have hmem := UMap.mem_of_find hs
  have htgt := target_socket_eq hinv hmem
  have hpos : (0 : Int) ≤ s := hinv.2.1 _ hmem
  rw [command_msg st s U U t hU ht, htgt, if_pos (by omega), if_pos rfl]
  rfl

theorem msg_self_witness :
    handle_client_command demoPair 3 "alice".toList "/msg alice hi".toList
      = ⟨demoPair, [(3, "Error: Cannot send a private message to yourself.\n".toList)], false⟩ :=
  msg_self demoUsers demoPair demoPair_reachable 3 "alice".toList "hi".toList
    (by decide) (by decide) (by decide)

/-- C6: in a reachable state, when socket `r`, different from the sender `s`, is
registered under the space-free name `T`, the line `/msg T t` with `t`
non-empty makes one send only, `[U]: t\n` to `r`, and changes neither
registry; the sender is sent nothing. -/
theorem msg_delivery (users : UMap Str Str) (st : Server) (hreach : Reachable users st)
    (s r : Int) (U T t : Str) (hT : contains_space T = false)
    (hr : UMap.find st.clients r = some T) (hrs : r ≠ s) (ht : t ≠ []) :
    handle_client_command st s U ("/msg ".toList ++ T ++ " ".toList ++ t)
      = ⟨st, [(r, "[".toList ++ U ++ "]: ".toList ++ t ++ "\n".toList)], false⟩ := by
  have hinv := reachable_clientsInv hreach
  have hmem := UMap.mem_of_find hr
  have htgt := target_socket_eq hinv hmem
  have hpos : (0 : Int) ≤ r := hinv.2.1 _ hmem
  rw [command_msg st s U T t hT ht, htgt, if_pos (by omega), if_neg hrs]

theorem msg_delivery_witness :
    handle_client_command demoPair 3 "alice".toList "/msg bob hi".toList
      = ⟨demoPair, [(4, "[alice]: hi\n".toList)], false⟩ :=
  msg_delivery demoUsers demoPair demoPair_reachable 3 4 "alice".toList "bob".toList
    "hi".toList (by decide) (by decide) (by decide) (by decide)

/-- C7: in any state, when no registry entry carries the space-free name `T`,
the line `/msg T t` with `t` non-empty makes one send only, the user-not-found
error to the sender, and changes neither registry. -/
theorem msg_user_not_found (st : Server) (s : Int) (username T t : Str)
    (hT : contains_space T = false) (habs : ∀ e ∈ st.clients, e.2 ≠ T) (ht : t ≠ []) :
    handle_client_command st s username ("/msg ".toList ++ T ++ " ".toList ++ t)
      = ⟨st, [(s, "Error: User \"".toList ++ T ++ "\" not found.\n".toList)], false⟩ := by
  rw [command_msg st s username T t hT ht, target_socket_absent _ _ habs, if_neg (by simp)]
  rfl

theorem msg_user_not_found_witness :
    handle_client_command demoPair 3 "alice".toList "/msg ghost hi".toList
      = ⟨demoPair, [(3, "Error: User \"ghost\" not found.\n".toList)], false⟩ :=
  msg_user_not_found demoPair 3 "alice".toList "ghost".toList "hi".toList
    (by decide) (by decide) (by decide)


theorem validate_iff (users : UMap Str Str) (username password : Str) :
    validate users username password = true ↔ UMap.find users username = some password := by
  unfold validate
  cases h : UMap.find users username with
  | none => simp
  | some v => simp [UMap.index_of_find [] h]

/-- C8: the credential check passes exactly when the store maps the received
username to the received password; when it does not, the only send is
`Error: Authentication failed.\n` to the connecting socket, the registries are
unchanged and the connection closes; with an empty store every attempt ends
so. -/
theorem auth_failure (users : UMap Str Str) (st : Server) (c : Int) (username password : Str) :
    (validate users username password = true ↔ UMap.find users username = some password) ∧
    (UMap.find users username ≠ some password →
      handle_client_auth users st c username password
        = ⟨st, [(c, "Error: Authentication failed.\n".toList)], true⟩) ∧
    handle_client_auth [] st c username password
        = ⟨st, [(c, "Error: Authentication failed.\n".toList)], true⟩ := by
  refine ⟨validate_iff users username password, ?_, ?_⟩
  · intro h
    unfold handle_client_auth
    rw [if_neg (fun hv => h ((validate_iff users username password).mp hv))]
  · unfold handle_client_auth
    rw [if_neg (fun hv => by simp [validate, UMap.find] at hv)]

theorem auth_failure_witness :
    handle_client_auth [("alice".toList, "pw1".toList)] ⟨[(3, "alice".toList)], []⟩ 4
        "alice".toList "pw2".toList
      = ⟨⟨[(3, "alice".toList)], []⟩, [(4, "Error: Authentication failed.\n".toList)], true⟩ :=
  (auth_failure [("alice".toList, "pw1".toList)] ⟨[(3, "alice".toList)], []⟩ 4
    "alice".toList "pw2".toList).2.1 (by decide)

/-- C9: when some registry entry already carries `U`, an attempt on socket `c`
with valid credentials for `U` makes one send only, the already-connected error
to `c` (so no join notice), leaves the registries unchanged and closes. -/
theorem auth_duplicate (users : UMap Str Str) (st : Server) (c r : Int) (U p : Str)
    (hr : (r, U) ∈ st.clients) (hv : UMap.find users U = some p) :
    handle_client_auth users st c U p
      = ⟨st, [(c, "Error: User \"".toList ++ U ++ "\" is already connected.\n".toList)],
          true⟩ := by
  unfold handle_client_auth
  rw [if_pos ((validate_iff users U p).mpr hv),
    if_pos (List.any_eq_true.mpr ⟨(r, U), hr, by simp⟩)]

theorem auth_duplicate_witness :
    handle_client_auth demoUsers demoPair 5 "alice".toList "pw1".toList
      = ⟨demoPair, [(5, "Error: User \"alice\" is already connected.\n".toList)], true⟩ :=
  auth_duplicate demoUsers demoPair 5 3 "alice".toList "pw1".toList (by decide) (by decide)

theorem command_create_group (st : Server) (s : Int) (username g : Str)
    (hne : g ≠ []) (hsp : contains_space g = false) :
    handle_client_command st s username ("/create_group ".toList ++ g)
      = if UMap.count st.groups g = 0 then
          reply ⟨st.clients, UMap.assign (UMap.index st.groups g []).1 g
              (USet.insert (UMap.index st.groups g []).2 s)⟩ s
            ("Group \"".toList ++ g ++ "\" created successfully.\n".toList)
        else
          reply st s ("Error: Group \"".toList ++ g ++ "\" already exists.\n".toList) := by
  have e1 : substr ("/create_group ".toList ++ g) 0 13 = "/create_group".toList := by
    simp [substr]
  have e2 : substrFrom ("/create_group ".toList ++ g) 14 = g := by
    simp [substrFrom]
  unfold handle_client_command
  rw [if_neg (by simp), if_neg (by simp), if_neg (by simp [substr]), if_neg (by simp [substr]),
    if_pos e1]
  unfold cmd_create_group
  rw [if_neg (by simp)]
  simp only [e2]
  rw [if_neg (by simpa using hne), if_neg (by simp [hsp])]

/-- C10: for a non-empty, space-free name `g` that is not yet a group, the line
`/create_group g` replies with the created message, keeps the client registry,
makes the member set of `g` exactly the creator, leaves every other group as it
was, and a following `/group_msg g t` from the creator is accepted: no error is
sent (nobody else is a member, so nothing is sent at all). -/
theorem create_group_joins_creator (st : Server) (s : Int) (username g : Str)
    (hne : g ≠ []) (hsp : contains_space g = false) (hnew : UMap.find st.groups g = none) :
    (handle_client_command st s username ("/create_group ".toList ++ g)).out
      = [(s, "Group \"".toList ++ g ++ "\" created successfully.\n".toList)] ∧
    (handle_client_command st s username ("/create_group ".toList ++ g)).closed = false ∧
    (handle_client_command st s username ("/create_group ".toList ++ g)).st.clients
      = st.clients ∧
    UMap.find (handle_client_command st s username ("/create_group ".toList ++ g)).st.groups g
      = some [s] ∧
    (∀ g2 : Str, g2 ≠ g →
      UMap.find (handle_client_command st s username ("/create_group ".toList ++ g)).st.groups g2
        = UMap.find st.groups g2) ∧
    ∀ t : Str, t ≠ [] →
      handle_client_command
          (handle_client_command st s username ("/create_group ".toList ++ g)).st s username
          ("/group_msg ".toList ++ g ++ " ".toList ++ t)
        = ⟨(handle_client_command st s username ("/create_group ".toList ++ g)).st, [], false⟩ := by
  have hc : UMap.count st.groups g = 0 := UMap.count_eq_zero.mpr hnew
  rw [command_create_group st s username g hne hsp, if_pos hc]
  simp only [reply, UMap.index, hnew]
  have hfind : UMap.find (UMap.assign (UMap.assign st.groups g []) g (USet.insert [] s)) g
      = some [s] := by
    rw [UMap.find_assign_self]; rfl
  refine ⟨trivial, trivial, trivial, hfind, ?_, ?_⟩
  · intro g2 h2
    rw [UMap.find_assign_ne _ _ h2, UMap.find_assign_ne _ _ h2]
  · intro t ht
    have hc2 : ¬ UMap.count (UMap.assign (UMap.assign st.groups g []) g (USet.insert [] s)) g
        = 0 := by
      rw [UMap.count_eq_zero, hfind]; simp
    rw [command_group_msg _ s username g t hsp ht, if_neg hc2, UMap.index_of_find [] hfind,
      if_neg (by simp)]
    simp [group_message, UMap.index_of_find [] hfind]

theorem create_group_joins_creator_witness :
    UMap.find (handle_client_command demoPair 3 "alice".toList
      "/create_group team".toList).st.groups "team".toList = some [3] ∧
    handle_client_command demoSolo 3 "alice".toList "/group_msg team hello".toList
      = ⟨demoSolo, [], false⟩ :=
  have h := create_group_joins_creator demoPair 3 "alice".toList "team".toList
    (by decide) (by decide) (by decide)
  ⟨h.2.2.2.1, h.2.2.2.2.2 "hello".toList (by decide)⟩

/-! ## Joining and leaving groups -/

theorem command_join_group (st : Server) (s : Int) (username g : Str) (hne : g ≠ []) :
    handle_client_command st s username ("/join_group ".toList ++ g)
      = if UMap.count st.groups g = 0 then
          reply st s ("Error: Group \"".toList ++ g ++ "\" does not exist.\n".toList)
        else if s ∈ (UMap.index st.groups g []).2 then
          reply ⟨st.clients, (UMap.index st.groups g []).1⟩ s
            ("Error: Already a member of group \"".toList ++ g ++ "\".\n".toList)
        else
          reply ⟨st.clients, UMap.assign (UMap.index st.groups g []).1 g
              (USet.insert (UMap.index st.groups g []).2 s)⟩ s
            ("Joined group \"".toList ++ g ++ "\" successfully.\n".toList) := by
  have e1 : substr ("/join_group ".toList ++ g) 0 11 = "/join_group".toList := by
    simp [substr]
  have e2 : substrFrom ("/join_group ".toList ++ g) 12 = g := by
    simp [substrFrom]
  unfold handle_client_command
  rw [if_neg (by simp), if_neg (by simp), if_neg (by simp [substr]), if_neg (by simp [substr]),
    if_neg (by simp [substr]), if_pos e1]
  unfold cmd_join_group
  rw [if_neg (by simp)]
  simp only [e2]
  rw [if_neg (by simpa using hne)]

theorem command_leave_group (st : Server) (s : Int) (username g : Str) (hne : g ≠ []) :
    handle_client_command st s username ("/leave_group ".toList ++ g)
      = if UMap.count st.groups g ≠ 0 then
          if s ∈ (UMap.index st.groups g []).2 then
            reply ⟨st.clients, UMap.assign (UMap.index st.groups g []).1 g
                (USet.erase (UMap.index st.groups g []).2 s)⟩ s
              ("Left group \"".toList ++ g ++ "\" successfully.\n".toList)
          else
            reply ⟨st.clients, (UMap.index st.groups g []).1⟩ s
              ("Error: Not a member of group \"".toList ++ g ++ "\".\n".toList)
        else
          reply st s ("Error: Group \"".toList ++ g ++ "\" does not exist.\n".toList) := by
  have e1 : substr ("/leave_group ".toList ++ g) 0 12 = "/leave_group".toList := by
    simp [substr]
  have e2 : substrFrom ("/leave_group ".toList ++ g) 13 = g := by
    simp [substrFrom]
  unfold handle_client_command
  rw [if_neg (by simp), if_neg (by simp), if_neg (by simp [substr]), if_neg (by simp [substr]),
    if_neg (by simp [substr]), if_neg (by simp [substr]), if_neg (by simp [substr]), if_pos e1]
  unfold cmd_leave_group
  rw [if_neg (by simp)]
  simp only [e2]
  rw [if_neg (by simpa using hne)]

theorem USet.not_mem_erase (mem : USet) (s : Int) : s ∉ USet.erase mem s := by
  simp [USet.erase]

theorem command_join_group_empty (st : Server) (s : Int) (username : Str) :
    handle_client_command st s username ("/join_group ".toList ++ [])
      = ⟨st, [(s, "Error: Group name cannot be empty.\n".toList)], false⟩ := by
  unfold handle_client_command
  rw [if_neg (by simp), if_neg (by simp), if_neg (by simp [substr]), if_neg (by simp [substr]),
    if_neg (by simp [substr]), if_pos (by simp [substr])]
  unfold cmd_join_group
  rw [if_neg (by simp)]
  simp only
  rw [if_pos (by simp [substrFrom])]
  rfl

theorem command_leave_group_empty (st : Server) (s : Int) (username : Str) :
    handle_client_command st s username ("/leave_group ".toList ++ [])
      = ⟨st, [(s, "Error: Group name cannot be empty.\n".toList)], false⟩ := by
  unfold handle_client_command
  rw [if_neg (by simp), if_neg (by simp), if_neg (by simp [substr]), if_neg (by simp [substr]),
    if_neg (by simp [substr]), if_neg (by simp [substr]), if_neg (by simp [substr]),
    if_pos (by simp [substr])]
  unfold cmd_leave_group
  rw [if_neg (by simp)]
  simp only
  rw [if_pos (by simp [substrFrom])]
  rfl

/-- C11: for a non-empty name `g`, the line `/join_group g` has one of three
outcomes fixed by the state.  If `g` is not a group the reply is the
does-not-exist error; if the sender is already a member the reply is the
already-a-member error; in both cases nothing changes.  Otherwise the reply is
the joined message and the members of `g` become the old members followed by
the sender.  In every case the entry of any other group is as before. -/
theorem join_group_outcomes (st : Server) (s : Int) (username g : Str) (hne : g ≠ []) :
    (UMap.find st.groups g = none →
      handle_client_command st s username ("/join_group ".toList ++ g)
        = ⟨st, [(s, "Error: Group \"".toList ++ g ++ "\" does not exist.\n".toList)], false⟩) ∧
    (∀ members : USet, UMap.find st.groups g = some members → s ∈ members →
      handle_client_command st s username ("/join_group ".toList ++ g)
        = ⟨st, [(s, "Error: Already a member of group \"".toList ++ g ++ "\".\n".toList)],
            false⟩) ∧
    (∀ members : USet, UMap.find st.groups g = some members → s ∉ members →
      (handle_client_command st s username ("/join_group ".toList ++ g)).out
        = [(s, "Joined group \"".toList ++ g ++ "\" successfully.\n".toList)] ∧
      (handle_client_command st s username ("/join_group ".toList ++ g)).closed = false ∧
      (handle_client_command st s username ("/join_group ".toList ++ g)).st.clients
        = st.clients ∧
      UMap.find (handle_client_command st s username ("/join_group ".toList ++ g)).st.groups g
        = some (members ++ [s])) ∧
    (∀ g2 : Str, g2 ≠ g →
      UMap.find (handle_client_command st s username ("/join_group ".toList ++ g)).st.groups g2
        = UMap.find st.groups g2) := by
  rw [command_join_group st s username g hne]
  refine ⟨?_, ?_, ?_, ?_⟩
  · intro h
    rw [if_pos (UMap.count_eq_zero.mpr h)]
    rfl
  · intro members h hs
    have hc : ¬ UMap.count st.groups g = 0 := by rw [UMap.count_eq_zero, h]; simp
    rw [if_neg hc, UMap.index_of_find [] h, if_pos hs]
    rfl
  · intro members h hs
    have hc : ¬ UMap.count st.groups g = 0 := by rw [UMap.count_eq_zero, h]; simp
    rw [if_neg hc, UMap.index_of_find [] h, if_neg hs]
    refine ⟨rfl, rfl, rfl, ?_⟩
    simp only [reply, UMap.find_assign_self, USet.insert, if_neg hs]
  · intro g2 h2
    cases h : UMap.find st.groups g with
    | none => rw [if_pos (UMap.count_eq_zero.mpr h)]; rfl
    | some members =>
      have hc : ¬ UMap.count st.groups g = 0 := by rw [UMap.count_eq_zero, h]; simp
      rw [if_neg hc, UMap.index_of_find [] h]
      split_ifs
      · rfl
      · simp only [reply, UMap.find_assign_ne _ _ h2]

theorem join_group_outcomes_witness :
    UMap.find (handle_client_command demoSolo 4 "bob".toList
      "/join_group team".toList).st.groups "team".toList = some [3, 4] :=
  ((join_group_outcomes demoSolo 4 "bob".toList "team".toList (by decide)).2.2.1 [3]
    (by decide) (by decide)).2.2.2

/-- C12: in a reachable state where `g` exists and `s` is a member, the first
`/leave_group g` from `s` is answered with the left message and the second with
the not-a-member error; the second leaves the state exactly as the first left
it. -/
theorem leave_group_twice (users : UMap Str Str) (st : Server) (hreach : Reachable users st)
    (s : Int) (username g : Str) (members : USet)
    (hg : UMap.find st.groups g = some members) (hs : s ∈ members) :
    (handle_client_command st s username ("/leave_group ".toList ++ g)).out
      = [(s, "Left group \"".toList ++ g ++ "\" successfully.\n".toList)] ∧
    (handle_client_command st s username ("/leave_group ".toList ++ g)).closed = false ∧
    handle_client_command
        (handle_client_command st s username ("/leave_group ".toList ++ g)).st s username
        ("/leave_group ".toList ++ g)
      = ⟨(handle_client_command st s username ("/leave_group ".toList ++ g)).st,
          [(s, "Error: Not a member of group \"".toList ++ g ++ "\".\n".toList)], false⟩ := by
  obtain ⟨_, hne, _⟩ := groupsInv_find (reachable_groupsInv hreach) hg
  have hc : UMap.count st.groups g ≠ 0 := by rw [Ne, UMap.count_eq_zero, hg]; simp
  rw [command_leave_group st s username g hne, if_pos hc, UMap.index_of_find [] hg, if_pos hs]
  refine ⟨rfl, rfl, ?_⟩
  have hfind : UMap.find (UMap.assign st.groups g (USet.erase members s)) g
      = some (USet.erase members s) := UMap.find_assign_self _ _ _
  have hc2 : UMap.count (UMap.assign st.groups g (USet.erase members s)) g ≠ 0 := by
    rw [Ne, UMap.count_eq_zero, hfind]; simp
  simp only [reply]
  rw [command_leave_group _ s username g hne, if_pos hc2, UMap.index_of_find [] hfind,
    if_neg (USet.not_mem_erase members s)]
  rfl

theorem leave_group_twice_witness :
    handle_client_command demoEmptied 3 "alice".toList "/leave_group team".toList
      = ⟨demoEmptied, [(3, "Error: Not a member of group \"team\".\n".toList)], false⟩ :=
  (leave_group_twice demoUsers demoSolo demoSolo_reachable 3 "alice".toList "team".toList [3]
    (by decide) (by decide)).2.2

/-! ## Groups persist -/

theorem UMap.isSome_find_assign {K V : Type} [DecidableEq K] (m : UMap K V) (k g : K) (v : V)
    (h : (UMap.find m g).isSome) : (UMap.find (UMap.assign m k v) g).isSome := by
  by_cases hk : g = k
  · subst hk; rw [UMap.find_assign_self]; rfl
  · rw [UMap.find_assign_ne _ _ hk]; exact h

theorem UMap.isSome_find_index {K V : Type} [DecidableEq K] (m : UMap K V) (k g : K) (d : V)
    (h : (UMap.find m g).isSome) : (UMap.find (UMap.index m k d).1 g).isSome := by
  unfold UMap.index
  cases hf : UMap.find m k with
  | none => exact UMap.isSome_find_assign m k g d h
  | some v => exact h

theorem create_keeps_groups (st : Server) (c : Int) (m g : Str)
    (h : (UMap.find st.groups g).isSome) :
    (UMap.find (cmd_create_group st c m).st.groups g).isSome := by
  unfold cmd_create_group
  simp only
  split_ifs
  · exact h
  · exact h
  · exact h
  · exact UMap.isSome_find_assign _ _ _ _ (UMap.isSome_find_index _ _ _ _ h)
  · exact h

theorem join_keeps_groups (st : Server) (c : Int) (m g : Str)
    (h : (UMap.find st.groups g).isSome) :
    (UMap.find (cmd_join_group st c m).st.groups g).isSome := by
  unfold cmd_join_group
  simp only
  split_ifs
  · exact h
  · exact h
  · exact h
  · exact UMap.isSome_find_index _ _ _ _ h
  · exact UMap.isSome_find_assign _ _ _ _ (UMap.isSome_find_index _ _ _ _ h)

theorem leave_keeps_groups (st : Server) (c : Int) (m g : Str)
    (h : (UMap.find st.groups g).isSome) :
    (UMap.find (cmd_leave_group st c m).st.groups g).isSome := by
  unfold cmd_leave_group
  simp only
  split_ifs
  · exact h
  · exact h
  · exact UMap.isSome_find_assign _ _ _ _ (UMap.isSome_find_index _ _ _ _ h)
  · exact UMap.isSome_find_index _ _ _ _ h
  · exact h

theorem group_msg_keeps_groups (st : Server) (c : Int) (m g : Str)
    (h : (UMap.find st.groups g).isSome) :
    (UMap.find (cmd_group_msg st c m).st.groups g).isSome := by
  unfold cmd_group_msg
  split_ifs
  · exact h
  · split
    · exact h
    · simp only
      split_ifs
      · exact h
      · exact h
      · exact UMap.isSome_find_index _ _ _ _ (UMap.isSome_find_index _ _ _ _ h)
      · exact UMap.isSome_find_index _ _ _ _ h

theorem command_keeps_groups (st : Server) (c : Int) (u m g : Str)
    (h : (UMap.find st.groups g).isSome) :
    (UMap.find (handle_client_command st c u m).st.groups g).isSome := by
  unfold handle_client_command
  split_ifs
  · exact h
  · exact h
  · rw [msg_groups]; exact h
  · rw [broadcast_groups]; exact h
  · exact create_keeps_groups st c m g h
  · exact join_keeps_groups st c m g h
  · exact group_msg_keeps_groups st c m g h
  · exact leave_keeps_groups st c m g h
  · exact h

theorem step_groups (st : Server) (c : Int) (u : Str) (recv : Option Str) :
    (handle_client_step st c u recv).st.groups
      = match recv with
        | none => st.groups
        | some m => (handle_client_command st c u m).st.groups := by
  unfold handle_client_step
  cases recv with
  | none => rfl
  | some m =>
    simp only
    split_ifs <;> rfl

/-- C13: no step removes a group.  A name that is a group before a credential
check, a pass of the command loop or a disconnection is a group afterwards.  In
a reachable state where `s` is the only member of `g`, after `/leave_group g`
from `s` the group `g` is still there with no member, and `/create_group g`
from any socket is then answered with the already-exists error and changes
nothing. -/
theorem groups_never_destroyed :
    (∀ (users : UMap Str Str) (st : Server) (c : Int) (username password g : Str),
      (UMap.find st.groups g).isSome →
      (UMap.find (handle_client_auth users st c username password).st.groups g).isSome) ∧
    (∀ (st : Server) (c : Int) (username g : Str) (recv : Option Str),
      (UMap.find st.groups g).isSome →
      (UMap.find (handle_client_step st c username recv).st.groups g).isSome) ∧
    (∀ (users : UMap Str Str) (st : Server) (s s2 : Int) (username username2 g : Str),
      Reachable users st → UMap.find st.groups g = some [s] →
      UMap.find (handle_client_command st s username ("/leave_group ".toList ++ g)).st.groups g
        = some [] ∧
      handle_client_command
          (handle_client_command st s username ("/leave_group ".toList ++ g)).st s2 username2
          ("/create_group ".toList ++ g)
        = ⟨(handle_client_command st s username ("/leave_group ".toList ++ g)).st,
            [(s2, "Error: Group \"".toList ++ g ++ "\" already exists.\n".toList)], false⟩) := by
  refine ⟨?_, ?_, ?_⟩
  · intro users st c username password g h
    rw [auth_groups]; exact h
  · intro st c username g recv h
    rw [step_groups]
    cases recv with
    | none => exact h
    | some m => exact command_keeps_groups st c username m g h
  · intro users st s s2 username username2 g hreach hg
    obtain ⟨_, hne, hsp⟩ := groupsInv_find (reachable_groupsInv hreach) hg
    have hc : UMap.count st.groups g ≠ 0 := by rw [Ne, UMap.count_eq_zero, hg]; simp
    rw [command_leave_group st s username g hne, if_pos hc, UMap.index_of_find [] hg,
      if_pos (List.mem_singleton_self s)]
    have hfind : UMap.find (UMap.assign st.groups g (USet.erase [s] s)) g = some [] := by
      rw [UMap.find_assign_self]; simp [USet.erase]
    have hc2 : ¬ UMap.count (UMap.assign st.groups g (USet.erase [s] s)) g = 0 := by
      rw [UMap.count_eq_zero, hfind]; simp
    refine ⟨hfind, ?_⟩
    simp only [reply]
    rw [command_create_group _ s2 username2 g hne hsp, if_neg hc2]
    rfl

theorem groups_never_destroyed_witness :
    UMap.find (handle_client_command demoSolo 3 "alice".toList
      "/leave_group team".toList).st.groups "team".toList = some [] ∧
    handle_client_command demoEmptied 4 "bob".toList "/create_group team".toList
      = ⟨demoEmptied, [(4, "Error: Group \"team\" already exists.\n".toList)], false⟩ :=
  groups_never_destroyed.2.2 demoUsers demoSolo 3 4 "alice".toList "bob".toList "team".toList
    demoSolo_reachable (by decide)

/-- C14: when a session ends, by a failed or zero-length read or by the line
`exit`, the group registry is exactly as before (so every membership of the
departed socket stays) and the session is closed. -/
theorem disconnect_keeps_groups (st : Server) (s : Int) (username : Str) :
    (handle_client_step st s username none).st.groups = st.groups ∧
    (handle_client_step st s username (some "exit".toList)).st.groups = st.groups ∧
    (handle_client_step st s username none).closed = true ∧
    (handle_client_step st s username (some "exit".toList)).closed = true := by
  refine ⟨rfl, ?_, rfl, ?_⟩
  · rw [step_groups]
    simp only [handle_client_command, if_pos]
  · simp [handle_client_step, handle_client_command, handle_client_disconnect]

/-! ## Absent groups and group names -/

/-- Counterexample to C15 as stated: the empty name is not a group and has no
space, yet `/join_group ` is answered with the empty-name error and not with
the does-not-exist error. -/
theorem join_empty_name_reply :
    UMap.find demoPair.groups [] = none ∧ contains_space [] = false ∧
    handle_client_command demoPair 3 "alice".toList ("/join_group ".toList ++ [])
      = ⟨demoPair, [(3, "Error: Group name cannot be empty.\n".toList)], false⟩ ∧
    handle_client_command demoPair 3 "alice".toList ("/join_group ".toList ++ [])
      ≠ ⟨demoPair, [(3, "Error: Group \"".toList ++ [] ++ "\" does not exist.\n".toList)],
          false⟩ := by
  decide

/-- C15, amended: for a name `g` that is not a group, `/join_group g` and
`/leave_group g` are answered with the does-not-exist error when `g` is
non-empty and with the empty-name error when `g` is empty, and `/group_msg g t`
is answered with the does-not-exist error when `g` has no space and `t` is
non-empty; each time nothing else is sent and the state, so the group registry,
is unchanged: `g` is still absent. -/
theorem absent_group_not_fabricated (st : Server) (s : Int) (username g : Str)
    (habs : UMap.find st.groups g = none) :
    (g ≠ [] →
      handle_client_command st s username ("/join_group ".toList ++ g)
        = ⟨st, [(s, "Error: Group \"".toList ++ g ++ "\" does not exist.\n".toList)], false⟩ ∧
      handle_client_command st s username ("/leave_group ".toList ++ g)
        = ⟨st, [(s, "Error: Group \"".toList ++ g ++ "\" does not exist.\n".toList)],
            false⟩) ∧
    (g = [] →
      handle_client_command st s username ("/join_group ".toList ++ g)
        = ⟨st, [(s, "Error: Group name cannot be empty.\n".toList)], false⟩ ∧
      handle_client_command st s username ("/leave_group ".toList ++ g)
        = ⟨st, [(s, "Error: Group name cannot be empty.\n".toList)], false⟩) ∧
    (∀ t : Str, contains_space g = false → t ≠ [] →
      handle_client_command st s username ("/group_msg ".toList ++ g ++ " ".toList ++ t)
        = ⟨st, [(s, "Error: Group \"".toList ++ g ++ "\" does not exist.\n".toList)],
            false⟩) := by
  have hc : UMap.count st.groups g = 0 := UMap.count_eq_zero.mpr habs
  refine ⟨?_, ?_, ?_⟩
  · intro hne
    constructor
    · rw [command_join_group st s username g hne, if_pos hc]; rfl
    · rw [command_leave_group st s username g hne, if_neg (by simp [hc])]; rfl
  · intro he
    subst he
    exact ⟨command_join_group_empty st s username, command_leave_group_empty st s username⟩
  · intro t hsp ht
    rw [command_group_msg st s username g t hsp ht, if_pos hc]; rfl

theorem absent_group_not_fabricated_witness :
    handle_client_command demoPair 3 "alice".toList "/join_group team".toList
      = ⟨demoPair, [(3, "Error: Group \"team\" does not exist.\n".toList)], false⟩ ∧
    handle_client_command demoPair 3 "alice".toList "/leave_group team".toList
      = ⟨demoPair, [(3, "Error: Group \"team\" does not exist.\n".toList)], false⟩ :=
  (absent_group_not_fabricated demoPair 3 "alice".toList "team".toList (by decide)).1
    (by decide)

theorem demoTab_reachable : Reachable demoUsers demoTab :=
  ReachableFrom.step 3 "alice".toList (some "/create_group a\tb".toList) demoPair_reachable
    (by decide)

/-- Counterexample to C16 as stated: the state reached when socket 3 sends
`/create_group a<TAB>b` has a group whose name holds a tab between two
letters. -/
theorem group_name_with_tab :
    ReachableFrom demoUsers ⟨[], []⟩ demoTab ∧
    ("a\tb".toList, [3]) ∈ demoTab.groups ∧ "a\tb".toList.get? 1 = some '\t' :=
  ⟨demoTab_reachable, by decide, by decide⟩

/-- C16, amended: in every state reached from an empty group registry, every
group name is non-empty and holds no space character (other whitespace is not
excluded). -/
theorem group_names_space_free (users : UMap Str Str) (c0 : UMap Int Str) (st : Server)
    (hreach : ReachableFrom users ⟨c0, []⟩ st) (g : Str) (members : USet)
    (hg : (g, members) ∈ st.groups) : g ≠ [] ∧ ' ' ∉ g := by
  have h := (reachableFrom_groupsInv groupsInv_nil hreach).2 (g, members) hg
  exact ⟨h.2.1, contains_space_eq_false.mp h.2.2⟩

theorem group_names_space_free_witness : "a\tb".toList ≠ [] ∧ ' ' ∉ "a\tb".toList :=
  group_names_space_free demoUsers [] demoTab demoTab_reachable "a\tb".toList [3] (by decide)

/-! ## Dispatch and error replies -/

/-- C17, the code at the failing input: with `bob` registered on socket 4, the
line `/msgXbob hi` from socket 3, whose fifth character is not a space, is
delivered to socket 4 as a direct message and the sender gets no error. -/
theorem msg_without_separator_delivers :
    handle_client_command demoPair 3 "alice".toList "/msgXbob hi".toList
      = ⟨demoPair, [(4, "[alice]: hi\n".toList)], false⟩ := by
  decide

theorem substr_ne_of_not_starts {p message : Str} (n : Nat) (h : ¬ p <+: message) :
    substr message 0 n ≠ p := by
  intro e
  apply h
  rw [← e]
  exact List.take_prefix n message

/-- C18: a received line that is not empty, is not exactly `exit` and starts
with none of the six command words is answered with `Error: Unknown command.\n`
to the sender only; the state is unchanged and the session stays in the
loop. -/
theorem unknown_command (st : Server) (s : Int) (username message : Str)
    (hne : message ≠ []) (hexit : message ≠ "exit".toList)
    (h1 : ¬ "/msg".toList <+: message) (h2 : ¬ "/broadcast".toList <+: message)
    (h3 : ¬ "/create_group".toList <+: message) (h4 : ¬ "/join_group".toList <+: message)
    (h5 : ¬ "/group_msg".toList <+: message) (h6 : ¬ "/leave_group".toList <+: message) :
    handle_client_command st s username message
      = ⟨st, [(s, "Error: Unknown command.\n".toList)], false⟩ := by
  unfold handle_client_command
  rw [if_neg hexit, if_neg (by simpa using hne), if_neg (substr_ne_of_not_starts 4 h1),
    if_neg (substr_ne_of_not_starts 10 h2), if_neg (substr_ne_of_not_starts 13 h3),
    if_neg (substr_ne_of_not_starts 11 h4), if_neg (substr_ne_of_not_starts 10 h5),
    if_neg (substr_ne_of_not_starts 12 h6)]
  rfl

theorem unknown_command_witness :
    handle_client_command demoPair 3 "alice".toList "/MSG bob hi".toList
      = ⟨demoPair, [(3, "Error: Unknown command.\n".toList)], false⟩ :=
  unknown_command demoPair 3 "alice".toList "/MSG bob hi".toList (by decide) (by decide)
    (by decide) (by decide) (by decide) (by decide) (by decide) (by decide)

theorem not_mem_fanout_clients (clients : UMap Int Str) (s : Int) (msg txt : Str) :
    (s, txt) ∉ (clients.filter (fun client => client.1 ≠ s)).map
      (fun client => (client.1, msg)) := by
  simp only [List.mem_map, List.mem_filter, decide_eq_true_eq, Prod.mk.injEq, not_exists,
    not_and]
  intro e he h1 _
  exact absurd h1 he.2

theorem not_mem_fanout_members (members : USet) (s : Int) (msg txt : Str) :
    (s, txt) ∉ (members.filter (fun m => m ≠ s)).map (fun m => (m, msg)) := by
  simp only [List.mem_map, List.mem_filter, decide_eq_true_eq, Prod.mk.injEq, not_exists,
    not_and]
  intro e he h1 _
  exact absurd h1 he.2

theorem reply_of_mem {st1 : Server} {s : Int} {lit txt : Str}
    (h : (s, txt) ∈ (reply st1 s lit).out) : reply st1 s lit = ⟨st1, [(s, txt)], false⟩ := by
  simp only [reply, List.mem_singleton, Prod.mk.injEq, true_and] at h
  rw [h]; rfl

theorem not_error_of_mem {st1 : Server} {s : Int} {lit txt : Str} {P : Prop}
    (h : (s, txt) ∈ (reply st1 s lit).out) (herr : "Error:".toList <+: txt)
    (hlit : ¬ "Error:".toList <+: lit) : P := by
  simp only [reply, List.mem_singleton, Prod.mk.injEq, true_and] at h
  rw [h] at herr
  exact absurd herr hlit

theorem msg_error (st : Server) (s : Int) (u m txt : Str)
    (h : (s, txt) ∈ (cmd_msg st s u m).out) :
    cmd_msg st s u m = ⟨st, [(s, txt)], false⟩ := by
  unfold cmd_msg at h ⊢
  cases hf : find m ' ' 5 with
  | none =>
    rw [hf] at h
    exact reply_of_mem h
  | some sp =>
    rw [hf] at h
    simp only at h ⊢
    split_ifs at h ⊢ with h1 h2 h3
    · exact reply_of_mem h
    · exact reply_of_mem h
    · simp only [List.mem_singleton, Prod.mk.injEq] at h
      exact absurd h.1.symm h3
    · exact reply_of_mem h

theorem broadcast_error (st : Server) (s : Int) (u m txt : Str)
    (h : (s, txt) ∈ (cmd_broadcast st s u m).out) :
    cmd_broadcast st s u m = ⟨st, [(s, txt)], false⟩ := by
  unfold cmd_broadcast at h ⊢
  simp only at h ⊢
  split_ifs at h ⊢
  · exact reply_of_mem h
  · exact reply_of_mem h
  · exact absurd h (not_mem_fanout_clients _ _ _ _)


theorem create_error (st : Server) (s : Int) (m txt : Str)
    (h : (s, txt) ∈ (cmd_create_group st s m).out) (herr : "Error:".toList <+: txt) :
    cmd_create_group st s m = ⟨st, [(s, txt)], false⟩ := by
  unfold cmd_create_group at h ⊢
  simp only at h ⊢
  split_ifs at h ⊢
  · exact reply_of_mem h
  · exact reply_of_mem h
  · exact reply_of_mem h
  · exact not_error_of_mem h herr (by simp)
  · exact reply_of_mem h

theorem join_error (st : Server) (s : Int) (m txt : Str)
    (h : (s, txt) ∈ (cmd_join_group st s m).out) (herr : "Error:".toList <+: txt) :
    cmd_join_group st s m = ⟨st, [(s, txt)], false⟩ := by
  unfold cmd_join_group at h ⊢
  simp only at h ⊢
  split_ifs at h ⊢ with h1 h2 h3 h4
  · exact reply_of_mem h
  · exact reply_of_mem h
  · exact reply_of_mem h
  · obtain ⟨mem, hm⟩ := UMap.exists_find_of_count h3
    rw [UMap.index_of_find [] hm] at h ⊢
    exact reply_of_mem h
  · exact not_error_of_mem h herr (by simp)

theorem leave_error (st : Server) (s : Int) (m txt : Str)
    (h : (s, txt) ∈ (cmd_leave_group st s m).out) (herr : "Error:".toList <+: txt) :
    cmd_leave_group st s m = ⟨st, [(s, txt)], false⟩ := by
  unfold cmd_leave_group at h ⊢
  simp only at h ⊢
  split_ifs at h ⊢ with h1 h2 h3 h4
  · exact reply_of_mem h
  · exact reply_of_mem h
  · exact not_error_of_mem h herr (by simp)
  · obtain ⟨mem, hm⟩ := UMap.exists_find_of_count h3
    rw [UMap.index_of_find [] hm] at h ⊢
    exact reply_of_mem h
  · exact reply_of_mem h

theorem group_msg_error (st : Server) (s : Int) (m txt : Str)
    (h : (s, txt) ∈ (cmd_group_msg st s m).out) :
    cmd_group_msg st s m = ⟨st, [(s, txt)], false⟩ := by
  unfold cmd_group_msg at h ⊢
  split_ifs at h ⊢ with h0
  · exact reply_of_mem h
  · cases hf : find m ' ' 11 with
    | none =>
      rw [hf] at h
      exact reply_of_mem h
    | some sp =>
      rw [hf] at h
      simp only at h ⊢
      split_ifs at h ⊢ with h1 h2 h3
      · exact reply_of_mem h
      · exact reply_of_mem h
      · exact absurd h (not_mem_fanout_members _ _ _ _)
      · obtain ⟨mem, hm⟩ := UMap.exists_find_of_count h2
        rw [UMap.index_of_find [] hm] at h ⊢
        exact reply_of_mem h

theorem command_error (st : Server) (s : Int) (u m txt : Str)
    (h : (s, txt) ∈ (handle_client_command st s u m).out) (herr : "Error:".toList <+: txt) :
    handle_client_command st s u m = ⟨st, [(s, txt)], false⟩ := by
  unfold handle_client_command at h ⊢
  split_ifs at h ⊢
  · simp only [List.mem_singleton, Prod.mk.injEq, true_and] at h
    rw [h] at herr
    simp at herr
  · exact reply_of_mem h
  · exact msg_error st s u m txt h
  · exact broadcast_error st s u m txt h
  · exact create_error st s m txt h herr
  · exact join_error st s m txt h herr
  · exact group_msg_error st s m txt h
  · exact leave_error st s m txt h herr
  · exact reply_of_mem h

/-- C19: in any state, if a step of session `s` (a received line, or a failed
read) sends `s` a text that starts with `Error:`, then that text is the only
send of the whole step, both registries are unchanged and the session stays in
the command loop. -/
theorem error_reply_is_whole_step (st : Server) (s : Int) (username txt : Str)
    (recv : Option Str)
    (hsent : (s, txt) ∈ (handle_client_step st s username recv).out)
    (herr : "Error:".toList <+: txt) :
    handle_client_step st s username recv = ⟨st, [(s, txt)], false⟩ := by
  unfold handle_client_step at hsent ⊢
  cases recv with
  | none => exact absurd hsent (not_mem_fanout_clients _ _ _ _)
  | some m =>
    simp only at hsent ⊢
    split_ifs at hsent ⊢ with hc
    · simp only [List.mem_append] at hsent
      rcases hsent with h | h
      · rw [command_error st s username m txt h herr] at hc
        exact absurd hc (by simp)
      · exact absurd h (not_mem_fanout_clients _ _ _ _)
    · exact command_error st s username m txt hsent herr

theorem error_reply_is_whole_step_witness :
    handle_client_step demoSolo 4 "bob".toList (some "/group_msg team hello".toList)
      = ⟨demoSolo, [(4, "Error: Not a member of group \"team\".\n".toList)], false⟩ :=
  error_reply_is_whole_step demoSolo 4 "bob".toList
    "Error: Not a member of group \"team\".\n".toList (some "/group_msg team hello".toList)
    (by decide) (by decide)

/-! ## Credential store: lemmas -/

theorem findChar_split {ch : Char} {s : Str} {n : Nat} (h : findChar ch s = some n) :
    s = s.take n ++ ch :: s.drop (n + 1) ∧ ch ∉ s.take n := by
  induction s generalizing n with
  | nil => simp [findChar] at h
  | cons x xs ih =>
    by_cases hx : x = ch
    · simp [findChar, hx] at h
      subst h
      simp [hx]
    · simp only [findChar, hx, if_false, Option.map_eq_some'] at h
      obtain ⟨k, hk, rfl⟩ := h
      obtain ⟨h1, h2⟩ := ih hk
      constructor
      · simp only [List.take_succ_cons, List.drop_succ_cons, List.cons_append]
        rw [← h1]
      · simp only [List.take_succ_cons, List.mem_cons, not_or]
        exact ⟨Ne.symm hx, h2⟩

theorem load_users_line_match (users : UMap Str Str) (u p : Str) (hu : ':' ∉ u) :
    load_users_line users (u ++ ':' :: p) = UMap.assign users u p := by
  have hf : find (u ++ ':' :: p) ':' 0 = some u.length := by
    simp [find, findChar_append_cons p hu]
  simp [load_users_line, hf, substr, substrFrom]

theorem find_load_users_line_other (users : UMap Str Str) (line u : Str)
    (h : ¬ (':' ∉ u ∧ ∃ r, line = u ++ ':' :: r)) :
    UMap.find (load_users_line users line) u = UMap.find users u := by
  unfold load_users_line
  cases hf : find line ':' 0 with
  | none => rfl
  | some pos =>
    simp only
    have hf2 : findChar ':' line = some pos := by
      simpa [find] using hf
    obtain ⟨h1, h2⟩ := findChar_split hf2
    apply UMap.find_assign_ne
    intro e
    apply h
    have e2 : line.take pos = u := by simpa [substr] using e.symm
    rw [e2] at h1 h2
    exact ⟨h2, _, h1⟩

theorem concat_eq_append_cons {α : Type} {init pre post : List α} {last x : α}
    (h : init ++ [last] = pre ++ x :: post) :
    (post = [] ∧ init = pre ∧ last = x) ∨ ∃ post1, post = post1 ++ [last] ∧ init = pre ++ x :: post1 := by
  rcases List.eq_nil_or_concat post with hp | ⟨post1, b, hp⟩
  · subst hp
    have := List.append_inj' h rfl
    simp at this
    exact Or.inl ⟨rfl, this.1, this.2⟩
  · subst hp
    have h2 : init ++ [last] = (pre ++ x :: post1) ++ [b] := by simpa using h
    have := List.append_inj' h2 rfl
    simp at this
    right
    exact ⟨post1, by rw [this.2]; simp, by simpa using this.1⟩

/-- C20: after `load_users` has read `lines` into an empty store, `u` is mapped
to `p` exactly when some line is `u`, a colon, `p` with no colon in `u` (so the
colon is the first of the line) and no later line has `u` before its first
colon: the last line for `u` wins, the password is everything after the first
colon, and lines without a colon add nothing. -/
theorem load_users_last_wins (lines : List Str) (u p : Str) :
    UMap.find (load_users [] (some lines)) u = some p ↔
      ∃ pre post : List Str, lines = pre ++ (u ++ ':' :: p) :: post ∧ ':' ∉ u ∧
        ∀ l ∈ post, ∀ r : Str, l ≠ u ++ ':' :: r := by
  induction lines using List.reverseRecOn generalizing p with
  | nil => simp [load_users, UMap.find]
  | append_singleton init last ih =>
    have hstep : load_users [] (some (init ++ [last]))
        = load_users_line (load_users [] (some init)) last := by
      simp [load_users, List.foldl_append]
    rw [hstep]
    by_cases hm : ':' ∉ u ∧ ∃ r, last = u ++ ':' :: r
    · obtain ⟨hu, r, rfl⟩ := hm
      rw [load_users_line_match _ u r hu, UMap.find_assign_self]
      constructor
      · intro h
        have hp : r = p := by simpa using h
        subst hp
        exact ⟨init, [], rfl, hu, by simp⟩
      · rintro ⟨pre, post, heq, _, hpost⟩
        rcases concat_eq_append_cons heq with ⟨_, _, h3⟩ | ⟨post1, h1, _⟩
        · have : r = p := by simpa using h3
          rw [this]
        · exact absurd rfl (hpost _ (by rw [h1]; simp) r)
    · rw [find_load_users_line_other _ _ _ hm, ih]
      constructor
      · rintro ⟨pre, post, heq, hu, hpost⟩
        refine ⟨pre, post ++ [last], by rw [heq]; simp, hu, ?_⟩
        intro l hl r hr
        rcases List.mem_append.mp hl with hl | hl
        · exact hpost l hl r hr
        · rw [List.mem_singleton] at hl
          exact hm ⟨hu, r, hl ▸ hr⟩
      · rintro ⟨pre, post, heq, hu, hpost⟩
        rcases concat_eq_append_cons heq with ⟨_, _, h3⟩ | ⟨post1, h1, h2⟩
        · exact absurd ⟨hu, p, h3⟩ hm
        · refine ⟨pre, post1, h2, hu, ?_⟩
          intro l hl
          exact hpost l (by rw [h1]; exact List.mem_append_left _ hl)

theorem load_users_last_wins_witness :
    UMap.find (load_users [] (some ["alice:pw1".toList, "no separator".toList,
      "alice:a:b".toList])) "alice".toList = some "a:b".toList :=
  (load_users_last_wins ["alice:pw1".toList, "no separator".toList, "alice:a:b".toList]
    "alice".toList "a:b".toList).mpr
    ⟨["alice:pw1".toList, "no separator".toList], [], by decide, by decide,
      fun l hl => absurd hl (List.not_mem_nil l)⟩

/-! ## Joining and leaving the chat -/

theorem received_append (c : Int) (a b : List Send) :
    received c (a ++ b) = received c a ++ received c b := by
  simp [received, List.filter_append]

theorem UMap.find_erase_self {K V : Type} [DecidableEq K] (m : UMap K V) (k : K) :
    UMap.find (UMap.erase m k) k = none := by
  rw [UMap.find_eq_none_iff]
  simp [UMap.erase, List.mem_filter]

theorem UMap.find_erase_ne {K V : Type} [DecidableEq K] (m : UMap K V) {k k2 : K}
    (h : k2 ≠ k) : UMap.find (UMap.erase m k) k2 = UMap.find m k2 := by
  induction m with
  | nil => rfl
  | cons e rest ih =>
    obtain ⟨k', v⟩ := e
    by_cases hk : k' = k
    · subst hk
      have : UMap.erase ((k', v) :: rest) k' = UMap.erase rest k' := by
        simp [UMap.erase, List.filter_cons]
      rw [this, ih]
      simp [UMap.find, Ne.symm h]
    · have : UMap.erase ((k', v) :: rest) k = (k', v) :: UMap.erase rest k := by
        simp [UMap.erase, List.filter_cons, hk]
      rw [this]
      by_cases hk2 : k' = k2
      · simp [UMap.find, hk2]
      · simp [UMap.find, hk2, ih]

/-- C21: when no socket is listed twice in the client registry, the credentials
are valid for `U` and no entry carries `U`, the credential check on socket `c`
keeps the session open, leaves the groups as they are, maps `c` to `U` and
changes no other entry; `c` is sent exactly the welcome text, and every other
socket is sent exactly `U has joined the chat.\n` once when it was registered
before the step, and nothing otherwise. -/
theorem auth_success (users : UMap Str Str) (st : Server) (c : Int) (U p : Str)
    (hwf : (st.clients.map Prod.fst).Nodup) (hv : UMap.find users U = some p)
    (hfree : ∀ e ∈ st.clients, e.2 ≠ U) :
    (handle_client_auth users st c U p).closed = false ∧
    (handle_client_auth users st c U p).st.groups = st.groups ∧
    UMap.find (handle_client_auth users st c U p).st.clients c = some U ∧
    (∀ c2 : Int, c2 ≠ c →
      UMap.find (handle_client_auth users st c U p).st.clients c2 = UMap.find st.clients c2) ∧
    received c (handle_client_auth users st c U p).out
      = ["Welcome to the chat server!\n".toList] ∧
    ∀ c2 : Int, c2 ≠ c →
      received c2 (handle_client_auth users st c U p).out
        = if c2 ∈ st.clients.map Prod.fst then [U ++ " has joined the chat.\n".toList]
          else [] := by
  have hany : ¬ (st.clients.any (fun client => client.2 = U)) = true := by
    intro h
    obtain ⟨e, he, h2⟩ := List.any_eq_true.mp h
    exact hfree e he (by simpa using h2)
  have hnd := UMap.nodup_keys_assign c U hwf
  unfold handle_client_auth
  rw [if_pos ((validate_iff users U p).mpr hv), if_neg hany]
  simp only
  refine ⟨trivial, trivial, UMap.find_assign_self _ _ _, fun c2 h2 => UMap.find_assign_ne _ _ h2, ?_, ?_⟩
  · rw [received_append, fanout_clients, received_fanout _ hnd, if_neg (by simp)]
    simp [received]
  · intro c2 h2
    rw [received_append, fanout_clients, received_fanout _ hnd]
    have hlast : received c2 [(c, "Welcome to the chat server!\n".toList)] = [] := by
      simp [received, Ne.symm h2]
    rw [hlast, List.append_nil, UMap.keys_assign]
    by_cases hk : c ∈ st.clients.map Prod.fst
    · rw [if_pos hk]
      by_cases h3 : c2 ∈ st.clients.map Prod.fst
      · rw [if_pos ⟨h3, h2⟩, if_pos h3]
      · rw [if_neg (fun h => h3 h.1), if_neg h3]
    · rw [if_neg hk]
      by_cases h3 : c2 ∈ st.clients.map Prod.fst
      · rw [if_pos ⟨List.mem_append_left _ h3, h2⟩, if_pos h3]
      · rw [if_neg, if_neg h3]
        rintro ⟨h4, _⟩
        rcases List.mem_append.mp h4 with h5 | h5
        · exact h3 h5
        · exact h2 (List.mem_singleton.mp h5)

theorem auth_success_witness :
    handle_client_auth demoUsers ⟨[(3, "alice".toList)], []⟩ 4 "bob".toList "pw2".toList
      = ⟨demoPair, [(3, "bob has joined the chat.\n".toList),
          (4, "Welcome to the chat server!\n".toList)], false⟩ ∧
    received 3 (handle_client_auth demoUsers ⟨[(3, "alice".toList)], []⟩ 4 "bob".toList
      "pw2".toList).out = ["bob has joined the chat.\n".toList] :=
  ⟨by decide, (auth_success demoUsers ⟨[(3, "alice".toList)], []⟩ 4 "bob".toList "pw2".toList
    (by decide) (by decide) (by decide)).2.2.2.2.2 3 (by decide)⟩


theorem target_socket_absent_erase {clients : UMap Int Str} (hinv : ClientsInv clients)
    {s : Int} {U : Str} (hs : (s, U) ∈ clients) :
    ∀ e ∈ UMap.erase clients s, e.2 ≠ U := by
  intro e he hU
  have h1 : e ∈ clients := UMap.mem_erase he
  have h2 : e.1 ≠ s := by
    simpa [UMap.erase, List.mem_filter] using (List.mem_filter.mp he).2
  exact h2 (hinv.2.2 e h1 (s, U) hs hU)

/-- C22: in a reachable state, when the session of `s` registered as `U` ends
(failed read or `exit`, both leave the same state), `s` has no entry afterwards,
every other entry is as before, the scan of `/msg U ...` finds nobody, and
`U has left the chat.\n` is sent exactly once to every other registered socket
and never to `s`. -/
theorem disconnect_unregisters (users : UMap Str Str) (st : Server)
    (hreach : Reachable users st) (s : Int) (U : Str)
    (hs : UMap.find st.clients s = some U) :
    (handle_client_step st s U (some "exit".toList)).st = (handle_client_step st s U none).st ∧
    UMap.find (handle_client_step st s U none).st.clients s = none ∧
    (∀ c : Int, c ≠ s →
      UMap.find (handle_client_step st s U none).st.clients c = UMap.find st.clients c) ∧
    target_socket (handle_client_step st s U none).st.clients U = -1 ∧
    (∀ c : Int, received c (handle_client_step st s U none).out
        = if c ∈ st.clients.map Prod.fst ∧ c ≠ s then [U ++ " has left the chat.\n".toList]
          else []) ∧
    ∀ c : Int, c ≠ s →
      received c (handle_client_step st s U (some "exit".toList)).out
        = if c ∈ st.clients.map Prod.fst then [U ++ " has left the chat.\n".toList]
          else [] := by
  have hinv := reachable_clientsInv hreach
  have hexit : handle_client_step st s U (some "exit".toList)
      = ⟨(handle_client_disconnect st s U).st,
          [(s, "Goodbye.\n".toList)] ++ (handle_client_disconnect st s U).out, true⟩ := by
    simp [handle_client_step, handle_client_command]
  have hnone : handle_client_step st s U none = handle_client_disconnect st s U := rfl
  rw [hexit, hnone]
  unfold handle_client_disconnect
  simp only
  refine ⟨trivial, UMap.find_erase_self _ _, fun c hc => UMap.find_erase_ne _ hc,
    target_socket_absent _ _ (target_socket_absent_erase hinv (UMap.mem_of_find hs)), ?_, ?_⟩
  · intro c
    rw [fanout_clients]
    exact received_fanout _ hinv.1 s c _
  · intro c hc
    rw [received_append, fanout_clients, received_fanout _ hinv.1]
    have h0 : received c [(s, "Goodbye.\n".toList)] = [] := by
      simp [received, Ne.symm hc]
    rw [h0, List.nil_append]
    by_cases h3 : c ∈ st.clients.map Prod.fst
    · rw [if_pos ⟨h3, hc⟩, if_pos h3]
    · rw [if_neg (fun h => h3 h.1), if_neg h3]

theorem disconnect_unregisters_witness :
    UMap.find (handle_client_step demoPair 4 "bob".toList none).st.clients 4 = none ∧
    received 3 (handle_client_step demoPair 4 "bob".toList none).out
      = ["bob has left the chat.\n".toList] ∧
    received 4 (handle_client_step demoPair 4 "bob".toList none).out = [] :=
  have h := disconnect_unregisters demoUsers demoPair demoPair_reachable 4 "bob".toList
    (by decide)
  ⟨h.2.1, h.2.2.2.2.1 3, h.2.2.2.2.1 4⟩

theorem msg_closed (st : Server) (c : Int) (u m : Str) : (cmd_msg st c u m).closed = false := by
  unfold cmd_msg; split
  · rfl
  · simp only; split_ifs <;> rfl

theorem broadcast_closed (st : Server) (c : Int) (u m : Str) :
    (cmd_broadcast st c u m).closed = false := by
  unfold cmd_broadcast; simp only; split_ifs <;> rfl

theorem create_closed (st : Server) (c : Int) (m : Str) :
    (cmd_create_group st c m).closed = false := by
  unfold cmd_create_group; simp only; split_ifs <;> rfl

theorem join_closed (st : Server) (c : Int) (m : Str) :
    (cmd_join_group st c m).closed = false := by
  unfold cmd_join_group; simp only; split_ifs <;> rfl

theorem group_msg_closed (st : Server) (c : Int) (m : Str) :
    (cmd_group_msg st c m).closed = false := by
  unfold cmd_group_msg; split_ifs
  · rfl
  · split
    · rfl
    · simp only; split_ifs <;> rfl

theorem leave_closed (st : Server) (c : Int) (m : Str) :
    (cmd_leave_group st c m).closed = false := by
  unfold cmd_leave_group; simp only; split_ifs <;> rfl

theorem command_closed (st : Server) (c : Int) (u m : Str) :
    (handle_client_command st c u m).closed = true ↔ m = "exit".toList := by
  unfold handle_client_command
  split_ifs with h
  · exact ⟨fun _ => h, fun _ => rfl⟩
  · exact ⟨fun hc => absurd hc (by simp [reply]), fun e => absurd e h⟩
  · exact ⟨fun hc => absurd hc (by simp [msg_closed]), fun e => absurd e h⟩
  · exact ⟨fun hc => absurd hc (by simp [broadcast_closed]), fun e => absurd e h⟩
  · exact ⟨fun hc => absurd hc (by simp [create_closed]), fun e => absurd e h⟩
  · exact ⟨fun hc => absurd hc (by simp [join_closed]), fun e => absurd e h⟩
  · exact ⟨fun hc => absurd hc (by simp [group_msg_closed]), fun e => absurd e h⟩
  · exact ⟨fun hc => absurd hc (by simp [leave_closed]), fun e => absurd e h⟩
  · exact ⟨fun hc => absurd hc (by simp [reply]), fun e => absurd e h⟩

/-- C23: a received line closes the session exactly when it is the four
characters `exit`, and then the closing socket is sent `Goodbye.\n` and nothing
else; a failed or zero-length read closes the session and sends that socket
nothing. -/
theorem exit_closes_session (st : Server) (s : Int) (username : Str) :
    (∀ m : Str, (handle_client_step st s username (some m)).closed = true ↔ m = "exit".toList) ∧
    received s (handle_client_step st s username (some "exit".toList)).out
      = ["Goodbye.\n".toList] ∧
    (handle_client_step st s username none).closed = true ∧
    received s (handle_client_step st s username none).out = [] := by
  refine ⟨?_, ?_, rfl, ?_⟩
  · intro m
    rw [← command_closed st s username m]
    unfold handle_client_step
    simp only
    split_ifs with h
    · simp [h]
    · rfl
  · have hexit : handle_client_step st s username (some "exit".toList)
        = ⟨(handle_client_disconnect st s username).st,
            [(s, "Goodbye.\n".toList)] ++ (handle_client_disconnect st s username).out,
            true⟩ := by
      simp [handle_client_step, handle_client_command]
    rw [hexit]
    simp only [handle_client_disconnect]
    rw [received_append, fanout_clients]
    have h1 : received s (List.map (fun m => (m, username ++ " has left the chat.\n".toList))
        (List.filter (fun m => m ≠ s) (st.clients.map Prod.fst))) = [] := by
      simp [received, List.filter_map, List.filter_filter]
    rw [h1]
    simp [received]
  · show received s (handle_client_disconnect st s username).out = []
    simp only [handle_client_disconnect]
    rw [fanout_clients]
    simp [received, List.filter_map, List.filter_filter]

/-! ## Stale group membership -/

theorem demoGone_reachable : Reachable demoTrio demoGone :=
  ReachableFrom.step 4 "bob".toList none
    (ReachableFrom.step 4 "bob".toList (some "/join_group team".toList)
      (ReachableFrom.step 3 "alice".toList (some "/create_group team".toList)
        (ReachableFrom.auth 4 "bob".toList "pw2".toList
          (ReachableFrom.auth 3 "alice".toList "pw1".toList ReachableFrom.start (by decide))
          (by decide))
        (by decide))
      (by decide))
    (by decide)

/-- C28: an execution in which a session receives and sends group messages
without ever creating or joining the group.  `bob` on socket 4 joined `team`
and disconnected (the state `demoGone` is reachable and socket 4 is no longer
registered); `carol` then logs in on a connection with descriptor 4; the next
`/group_msg team hello` from `alice` is delivered to socket 4, and the first
line of `carol`, `/group_msg team hi`, is accepted and delivered to `alice`. -/
theorem stale_membership_execution :
    Reachable demoTrio demoGone ∧
    UMap.find demoGone.clients 4 = none ∧
    handle_client_auth demoTrio demoGone 4 "carol".toList "pw3".toList
      = ⟨demoReuse, [(3, "carol has joined the chat.\n".toList),
          (4, "Welcome to the chat server!\n".toList)], false⟩ ∧
    handle_client_command demoReuse 3 "alice".toList "/group_msg team hello".toList
      = ⟨demoReuse, [(4, "[Group team]: hello\n".toList)], false⟩ ∧
    handle_client_command demoReuse 4 "carol".toList "/group_msg team hi".toList
      = ⟨demoReuse, [(3, "[Group team]: hi\n".toList)], false⟩ :=
  ⟨demoGone_reachable, by decide, by decide, by decide, by decide⟩

end ChatServer

namespace Handshake

/-! ## The SYN-ACK test -/

/-- Counterexample to C24 as stated: a first packet with SYN and ACK set and
acknowledgment number 201 but server sequence number 999, which is not
`SERVER_SYN_SEQ`, makes the client send its final ACK (sequence 600,
acknowledgment 401) and report the handshake as complete. -/
theorem handshake_ignores_server_seq :
    (999 : Nat) ≠ SERVER_SYN_SEQ ∧
    handshake [⟨0, 1, some ⟨true, true, 999, 201⟩⟩]
      = ([⟨true, false, 200, 0⟩, ⟨false, true, 600, 401⟩], true) := by
  decide

theorem wait_syn_ack_sound (passes : List Pass) (h : wait_syn_ack passes = true) :
    ∃ p ∈ passes, ∃ hdr : TcpHeader, p.packet = some hdr ∧ hdr.syn = true ∧ hdr.ack = true ∧
      hdr.ack_seq = CLIENT_SYN_SEQ + 1 := by
  induction passes with
  | nil => simp [wait_syn_ack] at h
  | cons p rest ih =>
    have lift : wait_syn_ack rest = true →
        ∃ q ∈ p :: rest, ∃ hdr : TcpHeader, q.packet = some hdr ∧ hdr.syn = true ∧
          hdr.ack = true ∧ hdr.ack_seq = CLIENT_SYN_SEQ + 1 := by
      intro hr
      obtain ⟨q, hq, hdr, h1⟩ := ih hr
      exact ⟨q, List.mem_cons_of_mem _ hq, hdr, h1⟩
    unfold wait_syn_ack at h
    split_ifs at h with h1 h2
    · exact lift h
    · cases hp : p.packet with
      | none =>
        rw [hp] at h
        exact lift h
      | some hdr =>
        rw [hp] at h
        simp only at h
        split_ifs at h with h3
        · simp only [Bool.and_eq_true, beq_iff_eq] at h3
          exact ⟨p, List.mem_cons_self _ _, hdr, hp, h3.1.1, h3.1.2, h3.2⟩
        · exact lift h

theorem wait_syn_ack_withSeq (passes : List Pass) (f : Pass → Nat) :
    wait_syn_ack (passes.map (fun p => p.withSeq (f p))) = wait_syn_ack passes := by
  induction passes with
  | nil => rfl
  | cons p rest ih =>
    simp only [List.map_cons]
    rw [wait_syn_ack, wait_syn_ack, ih]
    cases hp : p.packet with
    | none => simp [Pass.withSeq, hp]
    | some hdr => simp [Pass.withSeq, hp]

theorem handshake_of_wait (passes : List Pass) (h : wait_syn_ack passes = true) :
    handshake passes
      = ([⟨true, false, CLIENT_SYN_SEQ, 0⟩,
          ⟨false, true, CLIENT_ACK_SEQ, SERVER_SYN_SEQ + 1⟩], true) := by
  unfold handshake
  rw [if_pos h]

theorem handshake_of_not_wait (passes : List Pass) (h : ¬ wait_syn_ack passes = true) :
    handshake passes = ([⟨true, false, CLIENT_SYN_SEQ, 0⟩], false) := by
  unfold handshake
  rw [if_neg h]

/-- C24, amended: the handshake completes only if some received packet has SYN
and ACK set and acknowledgment number `CLIENT_SYN_SEQ + 1` (201), so a packet
with another acknowledgment number or a missing flag never completes it; when
it completes, the packets sent are the SYN (sequence 200) and the final ACK
(sequence 600, acknowledgment 401), and otherwise the SYN alone; a first packet
in time with both flags and acknowledgment number 201 completes it whatever its
sequence number; and replacing the sequence numbers of the received packets by
any others never changes the outcome: the server sequence number is not
examined. -/
theorem handshake_checks_ack_only (passes : List Pass) :
    ((handshake passes).2 = true →
      ∃ p ∈ passes, ∃ hdr : TcpHeader, p.packet = some hdr ∧ hdr.syn = true ∧
        hdr.ack = true ∧ hdr.ack_seq = CLIENT_SYN_SEQ + 1) ∧
    ((handshake passes).2 = true →
      (handshake passes).1
        = [⟨true, false, CLIENT_SYN_SEQ, 0⟩, ⟨false, true, CLIENT_ACK_SEQ, SERVER_SYN_SEQ + 1⟩]) ∧
    ((handshake passes).2 = false → (handshake passes).1 = [⟨true, false, CLIENT_SYN_SEQ, 0⟩]) ∧
    (∀ (seq : Nat) (rest : List Pass),
      (handshake (⟨0, 1, some ⟨true, true, seq, CLIENT_SYN_SEQ + 1⟩⟩ :: rest)).2 = true) ∧
    ∀ f : Pass → Nat, handshake (passes.map (fun p => p.withSeq (f p))) = handshake passes := by
  refine ⟨?_, ?_, ?_, ?_, ?_⟩
  · intro h
    apply wait_syn_ack_sound
    by_cases hw : wait_syn_ack passes = true
    · exact hw
    · rw [handshake_of_not_wait passes hw] at h
      exact absurd h (by simp)
  · intro h
    by_cases hw : wait_syn_ack passes = true
    · rw [handshake_of_wait passes hw]
    · rw [handshake_of_not_wait passes hw] at h
      exact absurd h (by simp)
  · intro h
    by_cases hw : wait_syn_ack passes = true
    · rw [handshake_of_wait passes hw] at h
      exact absurd h (by simp)
    · rw [handshake_of_not_wait passes hw]
  · intro seq rest
    rw [handshake_of_wait _ (by simp [wait_syn_ack, TIMEOUT_SECONDS])]
  · intro f
    unfold handshake
    rw [wait_syn_ack_withSeq]

/-! ## The checksum -/

theorem wrapLong_of_range {x : Int} (h0 : 0 ≤ x) (h1 : x < 9223372036854775808) :
    wrapLong x = x := by
  unfold wrapLong; omega

theorem sum_words_eq (ws : List Nat) (s : Int) (h0 : 0 ≤ s)
    (h1 : s + ((ws.sum : Nat) : Int) < 9223372036854775808) :
    sum_words s ws = s + ((ws.sum : Nat) : Int) := by
  induction ws generalizing s with
  | nil => simp [sum_words]
  | cons w ws ih =>
    simp only [List.sum_cons, Nat.cast_add] at h1
    have hw : wrapLong (s + (w : Int)) = s + w := wrapLong_of_range (by omega) (by omega)
    rw [sum_words, hw, ih _ (by omega) (by omega)]
    simp only [List.sum_cons, Nat.cast_add]
    ring

theorem sum_le_of_bounded (ws : List Nat) (hw : ∀ w ∈ ws, w < 65536) :
    ws.sum ≤ ws.length * 65535 := by
  induction ws with
  | nil => simp
  | cons w ws ih =>
    have h1 := hw w (List.mem_cons_self _ _)
    have h2 := ih (fun x hx => hw x (List.mem_cons_of_mem _ hx))
    simp only [List.sum_cons, List.length_cons]
    omega

theorem sum_set_zero (ws : List Nat) (i : Nat) (c : Nat) (hz : ws[i]? = some 0) :
    (ws.set i c).sum = ws.sum + c := by
  induction ws generalizing i with
  | nil => simp at hz
  | cons w ws ih =>
    cases i with
    | zero =>
      simp at hz
      subst hz
      simp [Nat.add_comm]
    | succ j =>
      simp at hz
      simp [List.set, ih j hz]
      omega

theorem fold_spec (S : Int) (h0 : 0 ≤ S) (h1 : S ≤ 2147450879) :
    ∃ m f : Int, 0 ≤ m ∧ S = 65535 * m + f ∧ 0 ≤ f ∧ f ≤ 65535 ∧ (f = 0 → S = 0) ∧
      (S / 65536 + S % 65536 + (S / 65536 + S % 65536) / 65536) % 65536 = f := by
  have hq0 : 0 ≤ S / 65536 := by omega
  have hq1 : S / 65536 ≤ 32767 := by omega
  have hr0 : 0 ≤ S % 65536 := by omega
  have hr1 : S % 65536 < 65536 := by omega
  have hS : S = 65536 * (S / 65536) + S % 65536 := by omega
  generalize S / 65536 = q at *
  generalize S % 65536 = r at *
  rcases lt_or_ge (q + r) 65536 with h | h
  · have ht : (q + r) / 65536 = 0 := by omega
    rw [ht]
    refine ⟨q, q + r, hq0, by omega, by omega, by omega, by omega, by omega⟩
  · have ht : (q + r) / 65536 = 1 := by omega
    rw [ht]
    refine ⟨q + 1, q + r - 65535, by omega, by omega, by omega, by omega, by omega, by omega⟩

theorem fold_core (S c : Int) (h0 : 0 ≤ S)
    (hc : c = (-(S / 65536 + S % 65536 + (S / 65536 + S % 65536) / 65536) - 1) % 65536)
    (h1 : S + c ≤ 2147385345) :
    (-((S + c) / 65536 + (S + c) % 65536 + ((S + c) / 65536 + (S + c) % 65536) / 65536) - 1)
      % 65536 = 0 := by
  have hc0 : 0 ≤ c := by omega
  obtain ⟨m, f, hm, hS, hf0, hf1, _, hf⟩ := fold_spec S h0 (by omega)
  obtain ⟨m2, f2, hm2, hS2, hf20, hf21, hz2, hf2⟩ := fold_spec (S + c) (by omega) (by omega)
  have hcf : c = 65535 - f := by omega
  have hf2v : f2 = 65535 := by
    have hne : f2 ≠ 0 := by
      intro h
      have := hz2 h
      omega
    omega
  omega


theorem compute_checksum_eq (ws : List Nat) (hs : ((ws.sum : Nat) : Int) ≤ 2147450879) :
    ((compute_checksum ws none : Nat) : Int)
      = (-(((ws.sum : Nat) : Int) / 65536 + ((ws.sum : Nat) : Int) % 65536
          + (((ws.sum : Nat) : Int) / 65536 + ((ws.sum : Nat) : Int) % 65536) / 65536) - 1)
        % 65536 := by
  have hsum : sum_words 0 ws = ((ws.sum : Nat) : Int) := by
    rw [sum_words_eq ws 0 (le_refl 0) (by omega)]; simp
  have hS0 : (0 : Int) ≤ ((ws.sum : Nat) : Int) := Int.natCast_nonneg _
  unfold compute_checksum
  simp only [hsum]
  generalize ((ws.sum : Nat) : Int) = S at *
  have e1 : wrapLong (S / 65536 + S % 65536) = S / 65536 + S % 65536 :=
    wrapLong_of_range (by omega) (by omega)
  rw [e1]
  have e2 : wrapLong (S / 65536 + S % 65536 + (S / 65536 + S % 65536) / 65536)
      = S / 65536 + S % 65536 + (S / 65536 + S % 65536) / 65536 :=
    wrapLong_of_range (by omega) (by omega)
  rw [e2]
  exact Int.toNat_of_nonneg (by omega)

/-- C27: for a buffer of at most 32767 sixteen-bit words (65534 bytes) whose
word `i` is zero, writing the value of `compute_checksum` into word `i` and
calling `compute_checksum` again gives 0. -/
theorem checksum_self_verifies (ws : List Nat) (i : Nat)
    (hlen : ws.length ≤ 32767) (hw : ∀ w ∈ ws, w < 65536) (hz : ws[i]? = some 0) :
    compute_checksum (ws.set i (compute_checksum ws none)) none = 0 := by
  have hb := sum_le_of_bounded ws hw
  have hS : ((ws.sum : Nat) : Int) ≤ 2147450879 := by
    have : ws.sum ≤ 32767 * 65535 := le_trans hb (Nat.mul_le_mul_right _ hlen)
    omega
  have hc := compute_checksum_eq ws hS
  have hclt : compute_checksum ws none < 65536 := by omega
  have hb2 : (ws.set i (compute_checksum ws none)).sum
      ≤ (ws.set i (compute_checksum ws none)).length * 65535 := by
    apply sum_le_of_bounded
    intro w hmem
    rcases List.mem_or_eq_of_mem_set hmem with h | h
    · exact hw w h
    · rw [h]; exact hclt
  rw [List.length_set] at hb2
  have hsum2 := sum_set_zero ws i (compute_checksum ws none) hz
  have hS2 : (((ws.set i (compute_checksum ws none)).sum : Nat) : Int) ≤ 2147385345 := by
    have : (ws.set i (compute_checksum ws none)).sum ≤ 32767 * 65535 :=
      le_trans hb2 (Nat.mul_le_mul_right _ hlen)
    omega
  have hc2 := compute_checksum_eq (ws.set i (compute_checksum ws none)) (by omega)
  rw [hsum2, Nat.cast_add] at hc2 hS2
  have h0 := fold_core ((ws.sum : Nat) : Int) ((compute_checksum ws none : Nat) : Int)
    (Int.natCast_nonneg _) hc hS2
  rw [h0] at hc2
  exact_mod_cast hc2

theorem checksum_self_verifies_witness :
    compute_checksum ([17664, 40, 54321, 0, 16390, 0, 32512, 1, 32512, 1].set 5
      (compute_checksum [17664, 40, 54321, 0, 16390, 0, 32512, 1, 32512, 1] none)) none = 0 :=
  checksum_self_verifies [17664, 40, 54321, 0, 16390, 0, 32512, 1, 32512, 1] 5
    (by decide) (by decide) (by decide)

end Handshake

namespace Routing

/-! ## Distance vector: the pass and the loop -/

theorem sound_id (n : Nat) : Sound n (fun s => s) := by
  intro s
  exact ⟨le_refl _, fun h => Or.inl h, fun _ => rfl⟩

theorem sound_comp {n : Nat} {T1 T2 : Table × Bool → Table × Bool}
    (h1 : Sound n T1) (h2 : Sound n T2) : Sound n (fun s => T2 (T1 s)) := by
  intro s
  obtain ⟨a1, b1, c1⟩ := h1 s
  obtain ⟨a2, b2, c2⟩ := h2 (T1 s)
  refine ⟨le_trans a2 a1, ?_, ?_⟩
  · intro h
    rcases b2 h with h3 | h3
    · rcases b1 h3 with h4 | h4
      · exact Or.inl h4
      · exact Or.inr (lt_of_le_of_lt a2 h4)
    · exact Or.inr (lt_of_lt_of_le h3 a1)
  · intro h
    have e2 := c2 h
    simp only at h
    rw [e2] at h
    simp only [e2]
    exact c1 h

theorem sound_foldl {α : Type} {n : Nat} (f : α → Table × Bool → Table × Bool) (l : List α)
    (h : ∀ x ∈ l, Sound n (f x)) :
    Sound n (fun s => l.foldl (fun s x => f x s) s) := by
  induction l with
  | nil => exact sound_id n
  | cons x xs ih =>
    have hx := h x (List.mem_cons_self _ _)
    have hxs := ih (fun y hy => h y (List.mem_cons_of_mem _ hy))
    exact sound_comp hx hxs

theorem addInt_ge (a b : Int) : -2147483648 ≤ addInt a b := by
  unfold addInt; omega

theorem weight_set_lt {n i k : Nat} (hi : i < n) (hk : k < n) (d : Table) (v : Int)
    (hv : v < d i k) (hlow : -2147483648 ≤ v) :
    weight n (Table.set d i k v) < weight n d := by
  unfold weight
  apply Finset.sum_lt_sum
  · intro p _
    unfold Table.set
    split_ifs with h
    · obtain ⟨h1, h2⟩ := h
      rw [h1, h2]
      omega
    · exact le_refl _
  · refine ⟨(i, k), by simp [hi, hk], ?_⟩
    simp only [Table.set, and_self, if_true]
    omega

theorem sound_relax {n i k : Nat} (hi : i < n) (hk : k < n) (j : Nat) :
    Sound n (relax i j k) := by
  intro s
  unfold relax
  split_ifs with h1 h2
  · exact ⟨le_refl _, fun h => Or.inl h, fun _ => rfl⟩
  · have hlt := weight_set_lt hi hk s.1 _ h2 (addInt_ge _ _)
    exact ⟨le_of_lt hlt, fun _ => Or.inr hlt, fun h => by simp at h⟩
  · exact ⟨le_refl _, fun h => Or.inl h, fun _ => rfl⟩

theorem sound_relaxVia (graph : Graph) {n i : Nat} (hi : i < n) (j : Nat) :
    Sound n (relaxVia graph n i j) := by
  unfold relaxVia
  by_cases h : i = j ∨ Graph.cost graph i j = INF
  · simp only [h, if_true]
    exact sound_id n
  · simp only [h, if_false]
    exact sound_foldl (fun k => relax i j k) (List.range n)
      (fun k hk => sound_relax hi (List.mem_range.mp hk) j)

theorem sound_rows (graph : Graph) (n : Nat) :
    Sound n (fun s => (List.range n).foldl
      (fun s i => (List.range n).foldl (fun s j => relaxVia graph n i j s) s) s) :=
  sound_foldl (fun i s => (List.range n).foldl (fun s j => relaxVia graph n i j s) s)
    (List.range n)
    (fun i hi => sound_foldl (fun j => relaxVia graph n i j) (List.range n)
      (fun j _ => sound_relaxVia graph (List.mem_range.mp hi) j))

theorem dvrPass_spec (graph : Graph) (n : Nat) (d : Table) :
    ((dvrPass graph n d).2 = true → weight n (dvrPass graph n d).1 < weight n d) ∧
    ((dvrPass graph n d).2 = false → (dvrPass graph n d).1 = d) := by
  obtain ⟨_, b, c⟩ := sound_rows graph n (d, false)
  constructor
  · intro h
    rcases b h with h1 | h1
    · simp at h1
    · exact h1
  · intro h
    have := c h
    exact congrArg Prod.fst this

theorem dvrLoop_some (graph : Graph) (n : Nat) (fuel : Nat) (d : Table)
    (h : weight n d < fuel) :
    ∃ T, dvrLoop graph n fuel d = some T ∧ dvrPass graph n T = (T, false) := by
  induction fuel generalizing d with
  | zero => omega
  | succ f ih =>
    unfold dvrLoop
    obtain ⟨h1, h2⟩ := dvrPass_spec graph n d
    by_cases hu : (dvrPass graph n d).2 = true
    · rw [if_pos hu]
      exact ih _ (by have := h1 hu; omega)
    · rw [if_neg hu]
      have hf : (dvrPass graph n d).2 = false := by simpa using hu
      have e := h2 hf
      refine ⟨_, rfl, ?_⟩
      rw [e]
      exact Prod.ext e hf

theorem covers_foldl {α : Type} {n : Nat} (f : α → Table × Bool → Table × Bool)
    (R : α → Nat → Nat → Nat → Prop) (l : List α)
    (hs : ∀ x ∈ l, Sound n (f x)) (hc : ∀ x ∈ l, Covers (f x) (R x)) :
    Covers (fun s => l.foldl (fun s x => f x s) s) (fun i j k => ∃ x ∈ l, R x i j k) := by
  induction l with
  | nil =>
    intro s _ i j k h
    obtain ⟨x, hx, _⟩ := h
    exact absurd hx (List.not_mem_nil x)
  | cons x xs ih =>
    intro s hfalse i j k h
    have hxs := sound_foldl f xs (fun y hy => hs y (List.mem_cons_of_mem _ hy))
    have e1 := (hxs (f x s)).2.2 hfalse
    simp only [List.foldl_cons] at hfalse e1
    rw [e1] at hfalse
    have e2 := ((hs x (List.mem_cons_self _ _)) s).2.2 hfalse
    obtain ⟨y, hy, hR⟩ := h
    rcases List.mem_cons.mp hy with rfl | hy
    · exact hc y (List.mem_cons_self _ _) s hfalse i j k hR
    · have := ih (fun y hy => hs y (List.mem_cons_of_mem _ hy))
        (fun y hy => hc y (List.mem_cons_of_mem _ hy)) (f x s)
        (by simp only; rw [e1]; exact hfalse) i j k ⟨y, hy, hR⟩
      rw [e2] at this
      exact this

theorem covers_relax (i j k : Nat) :
    Covers (relax i j k) (fun a b c => a = i ∧ b = j ∧ c = k) := by
  intro s hfalse a b c h
  obtain ⟨rfl, rfl, rfl⟩ := h
  intro hne
  unfold relax at hfalse
  rw [if_neg hne] at hfalse
  intro hlt
  rw [if_pos hlt] at hfalse
  simp at hfalse

theorem covers_relaxVia (graph : Graph) {n i : Nat} (hi : i < n) (j : Nat) :
    Covers (relaxVia graph n i j)
      (fun a b c => a = i ∧ b = j ∧ c < n ∧ i ≠ j ∧ Graph.cost graph i j ≠ INF) := by
  intro s hfalse a b c h
  obtain ⟨rfl, rfl, hc, hij, hcost⟩ := h
  unfold relaxVia at hfalse
  rw [if_neg (by rintro (h | h); exact hij h; exact hcost h)] at hfalse
  exact covers_foldl (fun k => relax a b k) (fun k x y z => x = a ∧ y = b ∧ z = k)
    (List.range n) (fun k hk => sound_relax hi (List.mem_range.mp hk) b)
    (fun k _ => covers_relax a b k) s hfalse a b c
    ⟨c, List.mem_range.mpr hc, rfl, rfl, rfl⟩

theorem covers_rows (graph : Graph) (n : Nat) :
    Covers (fun s => (List.range n).foldl
      (fun s i => (List.range n).foldl (fun s j => relaxVia graph n i j s) s) s)
      (fun a b c => a < n ∧ b < n ∧ c < n ∧ a ≠ b ∧ Graph.cost graph a b ≠ INF) := by
  intro s hfalse a b c h
  obtain ⟨ha, hb, hc, hab, hcost⟩ := h
  refine covers_foldl
    (fun i s => (List.range n).foldl (fun s j => relaxVia graph n i j s) s)
    (fun i x y z => x = i ∧ y < n ∧ z < n ∧ x ≠ y ∧ Graph.cost graph x y ≠ INF)
    (List.range n)
    (fun i hi => sound_foldl (fun j => relaxVia graph n i j) (List.range n)
      (fun j _ => sound_relaxVia graph (List.mem_range.mp hi) j))
    ?_ s hfalse a b c ⟨a, List.mem_range.mpr ha, rfl, hb, hc, hab, hcost⟩
  intro i hi s2 hfalse2 x y z hx
  obtain ⟨rfl, hy, hz, hxy, hcost2⟩ := hx
  exact covers_foldl (fun j => relaxVia graph n x j)
    (fun j p q r => p = x ∧ q = j ∧ r < n ∧ x ≠ j ∧ Graph.cost graph x j ≠ INF)
    (List.range n) (fun j _ => sound_relaxVia graph (List.mem_range.mp hi) j)
    (fun j _ => covers_relaxVia graph (List.mem_range.mp hi) j) s2 hfalse2 x y z
    ⟨y, List.mem_range.mpr hy, rfl, rfl, hz, hxy, hcost2⟩

theorem stable_of_pass (graph : Graph) (T : Table)
    (h : dvrPass graph graph.length T = (T, false)) : Stable graph T := by
  intro i hi j hj k hk hij hcost
  have hfalse : (dvrPass graph graph.length T).2 = false := by rw [h]
  exact covers_rows graph graph.length (T, false) hfalse i j k ⟨hi, hj, hk, hij, hcost⟩

theorem dvrLoop_mono (graph : Graph) (n : Nat) (fuel : Nat) (d T : Table)
    (h : dvrLoop graph n fuel d = some T) : dvrLoop graph n (fuel + 1) d = some T := by
  induction fuel generalizing d with
  | zero => simp [dvrLoop] at h
  | succ f ih =>
    rw [dvrLoop] at h ⊢
    by_cases hu : (dvrPass graph n d).2 = true
    · rw [if_pos hu] at h ⊢
      exact ih _ h
    · rw [if_neg hu] at h ⊢
      exact h

theorem dvrLoop_mono_le (graph : Graph) (n : Nat) (f1 f2 : Nat) (d T : Table)
    (hle : f1 ≤ f2) (h : dvrLoop graph n f1 d = some T) : dvrLoop graph n f2 d = some T := by
  induction f2 with
  | zero =>
    have : f1 = 0 := by omega
    subst this; exact h
  | succ f ih =>
    rcases Nat.lt_or_ge f1 (f + 1) with h1 | h1
    · exact dvrLoop_mono graph n f d T (ih (by omega))
    · have : f1 = f + 1 := by omega
      subst this; exact h

theorem addInt_of_range {a b : Int} (ha0 : 0 ≤ a) (ha1 : a ≤ 9999) (hb0 : 0 ≤ b)
    (hb1 : b ≤ 9999) : addInt a b = a + b := by
  unfold addInt; omega

theorem walk_trans {graph : Graph} {i j k : Nat} {a b : Int}
    (h1 : Walk graph i j a) (h2 : Walk graph j k b) : Walk graph i k (a + b) := by
  induction h1 with
  | nil i hi => simpa using h2
  | cons i j0 j c hi hj hlink _ ih =>
    have := Walk.cons i j0 k (c + b) hi hj hlink (ih h2)
    rw [← add_assoc] at this
    exact this

theorem walk_link {graph : Graph} {i j : Nat} (hi : i < graph.length) (hj : j < graph.length)
    (hlink : Graph.cost graph i j ≠ INF) : Walk graph i j (Graph.cost graph i j) := by
  have := Walk.cons i j j 0 hi hj hlink (Walk.nil j hj)
  simpa using this

theorem walk_bounds {graph : Graph} {i k : Nat} {c : Int} (h : Walk graph i k c) :
    i < graph.length ∧ k < graph.length := by
  induction h with
  | nil i hi => exact ⟨hi, hi⟩
  | cons i j k c hi hj hlink _ ih => exact ⟨hi, ih.2⟩

theorem walk_snoc {graph : Graph} {i j k : Nat} {a : Int} (h1 : Walk graph i j a)
    (hk : k < graph.length) (hlink : Graph.cost graph j k ≠ INF) :
    Walk graph i k (a + Graph.cost graph j k) :=
  walk_trans h1 (walk_link (walk_bounds h1).2 hk hlink)

theorem walk_nonneg {graph : Graph} (hg : CostMatrix graph) {i k : Nat} {c : Int}
    (h : Walk graph i k c) : 0 ≤ c := by
  induction h with
  | nil i hi => exact le_refl 0
  | cons i j k c hi hj hlink _ ih =>
    have := ((hg.2 i hi).2 j hj).1
    omega

theorem keeps_foldl {α : Type} {P : Table → Prop} (f : α → Table × Bool → Table × Bool)
    (l : List α) (h : ∀ x ∈ l, Keeps P (f x)) :
    Keeps P (fun s => l.foldl (fun s x => f x s) s) := by
  induction l with
  | nil => intro s hs; exact hs
  | cons x xs ih =>
    intro s hs
    exact ih (fun y hy => h y (List.mem_cons_of_mem _ hy)) (f x s)
      (h x (List.mem_cons_self _ _) s hs)

theorem keeps_relax {graph : Graph} (hg : CostMatrix graph) {i j k : Nat}
    (hi : i < graph.length) (hj : j < graph.length) (hk : k < graph.length)
    (hlink : Graph.cost graph i j ≠ INF) : Keeps (DvrInv graph) (relax i j k) := by
  intro s hs
  unfold relax
  split_ifs with h1 h2
  · exact hs
  · simp only
    obtain ⟨a0, a1, a2⟩ := hs i hi j hj
    obtain ⟨b0, b1, b2⟩ := hs j hj k hk
    obtain ⟨c0, c1, c2⟩ := hs i hi k hk
    have hcij := ((hg.2 i hi).2 j hj).2
    have hcjk := ((hg.2 j hj).2 k hk).2
    have hcik := ((hg.2 i hi).2 k hk).2
    unfold INF at h1 hlink a2 b2
    have hadd : addInt (s.1 i j) (s.1 j k) = s.1 i j + s.1 j k :=
      addInt_of_range a0 (by omega) b0 (by omega)
    rw [hadd] at h2 ⊢
    intro x hx y hy
    unfold Table.set
    split_ifs with hxy
    · obtain ⟨rfl, rfl⟩ := hxy
      refine ⟨by omega, by omega, fun _ => ?_⟩
      exact walk_trans (a2 (by omega)) (b2 (by omega))
    · exact hs x hx y hy
  · exact hs

theorem keeps_relaxVia {graph : Graph} (hg : CostMatrix graph) {i j : Nat}
    (hi : i < graph.length) (hj : j < graph.length) :
    Keeps (DvrInv graph) (relaxVia graph graph.length i j) := by
  unfold relaxVia
  by_cases h : i = j ∨ Graph.cost graph i j = INF
  · simp only [h, if_true]
    intro s hs; exact hs
  · simp only [h, if_false]
    have hlink : Graph.cost graph i j ≠ INF := fun e => h (Or.inr e)
    exact keeps_foldl (fun k => relax i j k) (List.range graph.length)
      (fun k hk => keeps_relax hg hi hj (List.mem_range.mp hk) hlink)

theorem dvrPass_inv {graph : Graph} (hg : CostMatrix graph) (d : Table)
    (h : DvrInv graph d) : DvrInv graph (dvrPass graph graph.length d).1 := by
  have := keeps_foldl (P := DvrInv graph)
    (fun i s => (List.range graph.length).foldl
      (fun s j => relaxVia graph graph.length i j s) s)
    (List.range graph.length)
    (fun i hi => keeps_foldl (fun j => relaxVia graph graph.length i j)
      (List.range graph.length)
      (fun j hj => keeps_relaxVia hg (List.mem_range.mp hi) (List.mem_range.mp hj)))
  exact this (d, false) h

theorem dvrLoop_inv {graph : Graph} (hg : CostMatrix graph) (fuel : Nat) (d T : Table)
    (h : DvrInv graph d) (hT : dvrLoop graph graph.length fuel d = some T) :
    DvrInv graph T := by
  induction fuel generalizing d with
  | zero => simp [dvrLoop] at hT
  | succ f ih =>
    rw [dvrLoop] at hT
    by_cases hu : (dvrPass graph graph.length d).2 = true
    · rw [if_pos hu] at hT
      exact ih _ (dvrPass_inv hg d h) hT
    · rw [if_neg hu] at hT
      have e : (dvrPass graph graph.length d).1 = T := by simpa using hT
      rw [← e]
      exact dvrPass_inv hg d h

theorem dvrInv_init {graph : Graph} (hg : CostMatrix graph) :
    DvrInv graph (fun i j => Graph.cost graph i j) := by
  intro i hi k hk
  refine ⟨((hg.2 i hi).2 k hk).1, le_refl _, fun h => ?_⟩
  have h2 : Graph.cost graph i k < INF := h
  exact walk_link hi hk (by unfold INF at h2 ⊢; omega)

theorem dvr_optimal {graph : Graph} (hg : CostMatrix graph) {T : Table}
    (hinv : DvrInv graph T) (hst : Stable graph T) {i k : Nat} {c : Int}
    (h : Walk graph i k c) : T i k ≤ c := by
  induction h with
  | nil i hi =>
    have := (hinv i hi i hi).2.1
    rw [(hg.2 i hi).1] at this
    exact this
  | cons i j k c hi hj hlink hw ih =>
    have hk := (walk_bounds hw).2
    have hc0 := walk_nonneg hg hw
    obtain ⟨a0, a1, _⟩ := hinv i hi j hj
    obtain ⟨b0, b1, _⟩ := hinv j hj k hk
    obtain ⟨c0, c1, _⟩ := hinv i hi k hk
    have hcij := (hg.2 i hi).2 j hj
    have hcjk := (hg.2 j hj).2 k hk
    have hcik := (hg.2 i hi).2 k hk
    by_cases hij : i = j
    · subst hij
      rw [(hg.2 i hi).1]
      simpa using ih
    · by_cases hjk : T j k = INF
      · unfold INF at hjk; omega
      · have := hst i hi j hj k hk hij hlink hjk
        unfold INF at hlink hjk
        rw [addInt_of_range a0 (by omega) b0 (by omega)] at this
        omega

theorem pickMin_spec_aux (s : LsrState) (k : Nat) :
    ((List.range k).foldl (pickStep s) none = none → ∀ j < k, s.visited j = true) ∧
    ∀ u, (List.range k).foldl (pickStep s) none = some u →
      u < k ∧ s.visited u = false ∧ ∀ j < k, s.visited j = false → s.dist u ≤ s.dist j := by
  induction k with
  | zero => simp
  | succ k ih =>
    rw [List.range_succ, List.foldl_append]
    simp only [List.foldl_cons, List.foldl_nil]
    generalize (List.range k).foldl (pickStep s) none = r at ih
    obtain ⟨ihn, ihs⟩ := ih
    unfold pickStep
    by_cases hv : s.visited k = true
    · simp only [hv, if_true]
      constructor
      · intro hr j hj
        rcases Nat.lt_succ_iff_lt_or_eq.mp hj with h | h
        · exact ihn hr j h
        · rw [h]; exact hv
      · intro u hr
        obtain ⟨h1, h2, h3⟩ := ihs u hr
        refine ⟨by omega, h2, ?_⟩
        intro j hj hjv
        rcases Nat.lt_succ_iff_lt_or_eq.mp hj with h | h
        · exact h3 j h hjv
        · rw [h, hv] at hjv; exact absurd hjv (by simp)
    · have hv2 : s.visited k = false := by simpa using hv
      simp only [hv2]
      cases r with
      | none =>
        simp only [Bool.false_eq_true, if_false]
        constructor
        · intro h; exact absurd h (by simp)
        · intro u hu
          have hu2 : k = u := by simpa using hu
          subst hu2
          refine ⟨by omega, hv2, ?_⟩
          intro j hj hjv
          rcases Nat.lt_succ_iff_lt_or_eq.mp hj with h | h
          · rw [ihn rfl j h] at hjv; exact absurd hjv (by simp)
          · rw [h]
      | some u0 =>
        simp only [Bool.false_eq_true, if_false]
        obtain ⟨h1, h2, h3⟩ := ihs u0 rfl
        constructor
        · intro h
          split_ifs at h
        · intro u hu
          by_cases hlt : s.dist k < s.dist u0
          · rw [if_pos hlt] at hu
            have hu2 : k = u := by simpa using hu
            subst hu2
            refine ⟨by omega, hv2, ?_⟩
            intro j hj hjv
            rcases Nat.lt_succ_iff_lt_or_eq.mp hj with h | h
            · have := h3 j h hjv; omega
            · rw [h]
          · rw [if_neg hlt] at hu
            have hu2 : u0 = u := by simpa using hu
            subst hu2
            refine ⟨by omega, h2, ?_⟩
            intro j hj hjv
            rcases Nat.lt_succ_iff_lt_or_eq.mp hj with h | h
            · exact h3 j h hjv
            · rw [h]; omega

theorem pickMin_none {n : Nat} {s : LsrState} (h : pickMin n s = none) :
    ∀ j < n, s.visited j = true :=
  (pickMin_spec_aux s n).1 h

theorem pickMin_some {n : Nat} {s : LsrState} {u : Nat} (h : pickMin n s = some u) :
    u < n ∧ s.visited u = false ∧ ∀ j < n, s.visited j = false → s.dist u ≤ s.dist j :=
  (pickMin_spec_aux s n).2 u h

theorem relaxFold_spec (graph : Graph) (u : Nat) (s1 : LsrState) (hu : s1.visited u = true)
    (k : Nat) :
    ((List.range k).foldl (relaxFrom graph u) s1).visited = s1.visited ∧
    ∀ x, ((List.range k).foldl (relaxFrom graph u) s1).dist x
      = if x < k ∧ Graph.cost graph u x ≠ INF ∧ s1.visited x = false ∧
            addInt (s1.dist u) (Graph.cost graph u x) < s1.dist x
        then addInt (s1.dist u) (Graph.cost graph u x) else s1.dist x := by
  induction k with
  | zero => simp
  | succ k ih =>
    rw [List.range_succ, List.foldl_append]
    simp only [List.foldl_cons, List.foldl_nil]
    generalize (List.range k).foldl (relaxFrom graph u) s1 = r at ih
    obtain ⟨hvis, hdist⟩ := ih
    have hdu : r.dist u = s1.dist u := by
      rw [hdist u, if_neg]
      intro h
      rw [hu] at h
      exact absurd h.2.2.1 (by simp)
    have hdk : r.dist k = s1.dist k := by
      rw [hdist k, if_neg]
      intro h
      exact absurd h.1 (lt_irrefl k)
    unfold relaxFrom
    rw [hvis, hdu, hdk]
    by_cases hc : Graph.cost graph u k ≠ INF ∧ s1.visited k = false
    · rw [if_pos hc]
      by_cases hlt : addInt (s1.dist u) (Graph.cost graph u k) < s1.dist k
      · rw [if_pos hlt]
        refine ⟨rfl, ?_⟩
        intro x
        simp only
        by_cases hx : x = k
        · subst hx
          rw [if_pos rfl, if_pos ⟨Nat.lt_succ_self _, hc.1, hc.2, hlt⟩]
        · rw [if_neg hx, hdist x]
          have : x < k + 1 ↔ x < k := by omega
          simp only [this]
      · rw [if_neg hlt]
        refine ⟨hvis, ?_⟩
        intro x
        rw [hdist x]
        by_cases hx : x = k
        · subst hx
          rw [if_neg (fun h => absurd h.1 (lt_irrefl _)), if_neg (fun h => hlt h.2.2.2)]
        · have : x < k + 1 ↔ x < k := by omega
          simp only [this]
    · rw [if_neg hc]
      refine ⟨hvis, ?_⟩
      intro x
      rw [hdist x]
      by_cases hx : x = k
      · subst hx
        rw [if_neg (fun h => absurd h.1 (lt_irrefl _)),
          if_neg (fun h => hc ⟨h.2.1, h.2.2.1⟩)]
      · have : x < k + 1 ↔ x < k := by omega
        simp only [this]

theorem visit_inv_aux {graph : Graph} (hg : CostMatrix graph) {src : Nat} {s : LsrState}
    (hinv : LsrInv graph src s) {u : Nat} (hpick : pickMin graph.length s = some u)
    (vis : Nat → Bool) (hvu0 : vis u = true) (hvold0 : ∀ x, x ≠ u → vis x = s.visited x) :
    LsrInv graph src ((List.range graph.length).foldl (relaxFrom graph u) ⟨s.dist, vis⟩) := by
  obtain ⟨hun, huv, hmin⟩ := pickMin_some hpick
  obtain ⟨hvis, hdist⟩ := relaxFold_spec graph u ⟨s.dist, vis⟩ hvu0 graph.length
  generalize (List.range graph.length).foldl (relaxFrom graph u) ⟨s.dist, vis⟩ = r
    at hvis hdist
  simp only at hvis hdist
  have hdu := hinv.range u hun
  have hadd : ∀ x < graph.length,
      addInt (s.dist u) (Graph.cost graph u x) = s.dist u + Graph.cost graph u x := by
    intro x hx
    have := (hg.2 u hun).2 x hx
    unfold INF at hdu
    exact addInt_of_range hdu.1 hdu.2 this.1 this.2
  have hcases : ∀ x,
      (r.dist x = s.dist x ∧
        ¬ (x < graph.length ∧ Graph.cost graph u x ≠ INF ∧ vis x = false ∧
          addInt (s.dist u) (Graph.cost graph u x) < s.dist x)) ∨
      (r.dist x = addInt (s.dist u) (Graph.cost graph u x) ∧
        (x < graph.length ∧ Graph.cost graph u x ≠ INF ∧ vis x = false ∧
          addInt (s.dist u) (Graph.cost graph u x) < s.dist x)) := by
    intro x
    by_cases h : x < graph.length ∧ Graph.cost graph u x ≠ INF ∧ vis x = false ∧
          addInt (s.dist u) (Graph.cost graph u x) < s.dist x
    · exact Or.inr ⟨by rw [hdist x, if_pos h], h⟩
    · exact Or.inl ⟨by rw [hdist x, if_neg h], h⟩
  have hle : ∀ x, r.dist x ≤ s.dist x := by
    intro x
    rcases hcases x with h | h
    · rw [h.1]
    · rw [h.1]; exact le_of_lt h.2.2.2.2
  have hsame : ∀ x, r.visited x = true → r.dist x = s.dist x := by
    intro x hx
    rw [hvis] at hx
    rcases hcases x with h | h
    · exact h.1
    · rw [hx] at h
      exact absurd h.2.2.2.1 (by simp)
  have hval : ∀ x < graph.length, r.dist x = s.dist x ∨
      (r.dist x = s.dist u + Graph.cost graph u x ∧ Graph.cost graph u x ≠ INF) := by
    intro x hx
    rcases hcases x with h | h
    · exact Or.inl h.1
    · exact Or.inr ⟨by rw [h.1, hadd x hx], h.2.2.1⟩
  have hrelaxed : ∀ x < graph.length, r.visited x = false → Graph.cost graph u x ≠ INF →
      r.dist x ≤ s.dist u + Graph.cost graph u x := by
    intro x hx hxv hc
    rw [hvis] at hxv
    rcases hcases x with h | h
    · rw [h.1]
      have : ¬ addInt (s.dist u) (Graph.cost graph u x) < s.dist x :=
        fun h2 => h.2 ⟨hx, hc, hxv, h2⟩
      rw [hadd x hx] at this
      omega
    · rw [h.1, hadd x hx]
  have hvold : ∀ x, x ≠ u → r.visited x = s.visited x := by
    intro x hx
    rw [hvis]
    exact hvold0 x hx
  have hvu : r.visited u = true := by rw [hvis]; exact hvu0
  constructor
  · intro v hv
    have h1 := hinv.range v hv
    have hc := (hg.2 u hun).2 v hv
    rcases hval v hv with h | h
    · rw [h]; exact h1
    · have := hle v
      rw [h.1] at this ⊢
      exact ⟨by omega, by omega⟩
  · intro v hv hlt
    rcases hval v hv with h | h
    · rw [h] at hlt ⊢
      exact hinv.walk v hv hlt
    · have hc := (hg.2 u hun).2 v hv
      rw [h.1] at hlt ⊢
      have hwu : Walk graph src u (s.dist u) := hinv.walk u hun (by omega)
      exact walk_snoc hwu hv h.2
  · have h1 := hle src
    rw [hinv.src0] at h1
    by_cases hs : src < graph.length
    · have := (hinv.range src hs)
      rcases hval src hs with h | h
      · rw [h]; exact hinv.src0
      · have hc := (hg.2 u hun).2 src hs
        rw [h.1] at h1 ⊢
        omega
    · rcases hcases src with h | h
      · rw [h.1]; exact hinv.src0
      · exact absurd h.2.1 hs
  · intro a ha b hb hav hc
    have hcab := (hg.2 a ha).2 b hb
    rw [hsame a hav]
    by_cases hau : a = u
    · subst hau
      by_cases hbv : r.visited b = true
      · rw [hsame b hbv]
        by_cases hbu : b = a
        · subst hbu; omega
        · have hbold : s.visited b = true := by rw [← hvold b hbu]; exact hbv
          have := hinv.order b hb a ha hbold huv
          omega
      · exact hrelaxed b hb (by simpa using hbv) hc
    · have haold : s.visited a = true := by rw [← hvold a hau]; exact hav
      have := hinv.edge a ha b hb haold hc
      have := hle b
      omega
  · intro a ha b hb hav hbv
    rw [hsame a hav]
    have hbu : b ≠ u := by
      intro e; rw [e, hvu] at hbv; exact absurd hbv (by simp)
    have hbold : s.visited b = false := by rw [← hvold b hbu]; exact hbv
    have hub := hmin b hb hbold
    have hcub := (hg.2 u hun).2 b hb
    by_cases hau : a = u
    · subst hau
      rcases hval b hb with h | h
      · rw [h]; exact hub
      · rw [h.1]; omega
    · have haold : s.visited a = true := by rw [← hvold a hau]; exact hav
      have h1 := hinv.order a ha u hun haold huv
      have h2 := hinv.order a ha b hb haold hbold
      rcases hval b hb with h | h
      · rw [h]; exact h2
      · rw [h.1]; omega

theorem visit_inv {graph : Graph} (hg : CostMatrix graph) {src : Nat} {s : LsrState}
    (hinv : LsrInv graph src s) {u : Nat} (hpick : pickMin graph.length s = some u) :
    LsrInv graph src ((List.range graph.length).foldl (relaxFrom graph u)
      ⟨s.dist, fun x => if x = u then true else s.visited x⟩) :=
  visit_inv_aux hg hinv hpick (fun x => if x = u then true else s.visited x) (by simp)
    (fun x hx => by simp [hx])

theorem unvisited_zero {n : Nat} {s : LsrState} (h : unvisited n s = 0) :
    ∀ v < n, s.visited v = true := by
  intro v hv
  unfold unvisited at h
  rw [Finset.card_eq_zero, Finset.filter_eq_empty_iff] at h
  have := h (Finset.mem_range.mpr hv)
  simpa using this

theorem unvisited_visit {n : Nat} {s r : LsrState} {u : Nat} (hu : u < n)
    (huv : s.visited u = false)
    (hr : r.visited = fun x => if x = u then true else s.visited x) :
    unvisited n r < unvisited n s := by
  unfold unvisited
  apply Finset.card_lt_card
  rw [Finset.ssubset_iff_of_subset]
  · refine ⟨u, by simp [hu, huv], ?_⟩
    simp [hr]
  · intro x hx
    rw [Finset.mem_filter] at hx ⊢
    refine ⟨hx.1, ?_⟩
    have h2 := hx.2
    rw [hr] at h2
    by_cases hxu : x = u
    · simp [hxu] at h2
    · simpa [hxu] using h2

theorem lsrLoop_spec {graph : Graph} (hg : CostMatrix graph) {src : Nat} (m : Nat)
    (s : LsrState) (hinv : LsrInv graph src s) (hm : unvisited graph.length s ≤ m) :
    LsrInv graph src (lsrLoop graph graph.length m s) ∧
    ∀ v < graph.length, (lsrLoop graph graph.length m s).visited v = false →
      (lsrLoop graph graph.length m s).dist v = INF := by
  induction m generalizing s with
  | zero =>
    have h0 := unvisited_zero (Nat.le_zero.mp hm)
    refine ⟨hinv, ?_⟩
    intro v hv hvis
    have : s.visited v = false := hvis
    rw [h0 v hv] at this
    exact absurd this (by simp)
  | succ m ih =>
    rw [lsrLoop]
    cases hp : pickMin graph.length s with
    | none =>
      simp only
      refine ⟨hinv, ?_⟩
      intro v hv hvis
      rw [pickMin_none hp v hv] at hvis
      exact absurd hvis (by simp)
    | some u =>
      simp only
      obtain ⟨hun, huv, hmin⟩ := pickMin_some hp
      by_cases hfin : s.dist u = INF
      · rw [if_pos hfin]
        refine ⟨hinv, ?_⟩
        intro v hv hvis
        have h1 := hmin v hv hvis
        have h2 := (hinv.range v hv).2
        rw [hfin] at h1
        exact le_antisymm h2 h1
      · rw [if_neg hfin]
        apply ih
        · exact visit_inv hg hinv hp
        · have hvis := (relaxFold_spec graph u
            ⟨s.dist, fun x => if x = u then true else s.visited x⟩ (by simp) graph.length).1
          have := unvisited_visit hun huv hvis
          omega

theorem lsrInv_init {graph : Graph} {src : Nat} (hsrc : src < graph.length) :
    LsrInv graph src ⟨fun v => if v = src then 0 else INF, fun _ => false⟩ := by
  constructor
  · intro v _
    simp only
    split_ifs
    · exact ⟨le_refl _, by unfold INF; omega⟩
    · exact ⟨by unfold INF; omega, le_refl _⟩
  · intro v _ h
    simp only at h ⊢
    split_ifs at h ⊢ with hv
    · subst hv; exact Walk.nil v hsrc
    · exact absurd h (lt_irrefl _)
  · simp
  · intro u _ v _ h
    simp at h
  · intro u _ v _ h
    simp at h

theorem unvisited_le (n : Nat) (s : LsrState) : unvisited n s ≤ n := by
  unfold unvisited
  calc ((Finset.range n).filter (fun v => s.visited v = false)).card
      ≤ (Finset.range n).card := Finset.card_filter_le _ _
    _ = n := Finset.card_range n

theorem lsr_correct {graph : Graph} (hg : CostMatrix graph) {src : Nat}
    (hsrc : src < graph.length) {v : Nat} (hv : v < graph.length) :
    simulateLSR graph src v ≤ INF ∧
    (simulateLSR graph src v < INF → Walk graph src v (simulateLSR graph src v)) ∧
    ∀ c, Walk graph src v c → simulateLSR graph src v ≤ c := by
  obtain ⟨hinv, hdone⟩ := lsrLoop_spec hg graph.length
    ⟨fun v => if v = src then 0 else INF, fun _ => false⟩ (lsrInv_init hsrc)
    (unvisited_le _ _)
  unfold simulateLSR
  generalize lsrLoop graph graph.length graph.length
    ⟨fun v => if v = src then 0 else INF, fun _ => false⟩ = r at hinv hdone
  refine ⟨(hinv.range v hv).2, hinv.walk v hv, ?_⟩
  have key : ∀ j k c, Walk graph j k c → r.dist k ≤ r.dist j + c := by
    intro j k c hw
    induction hw with
    | nil i hi => simp
    | cons i j k c hi hj hlink hw ih =>
      have hk := (walk_bounds hw).2
      have hc0 := walk_nonneg hg hw
      have hcij := ((hg.2 i hi).2 j hj).1
      by_cases hvis : r.visited i = true
      · have := hinv.edge i hi j hj hvis hlink
        omega
      · have hi2 := hdone i hi (by simpa using hvis)
        have := (hinv.range k hk).2
        omega
  intro c hw
  have := key src v c hw
  rw [hinv.src0] at this
  simpa using this

theorem capped_unique {graph : Graph} {i k : Nat} {a b : Int}
    (ha1 : a ≤ INF) (ha2 : a < INF → Walk graph i k a) (ha3 : ∀ c, Walk graph i k c → a ≤ c)
    (hb1 : b ≤ INF) (hb2 : b < INF → Walk graph i k b) (hb3 : ∀ c, Walk graph i k c → b ≤ c) :
    a = b := by
  by_cases ha : a < INF
  · have h1 := hb3 a (ha2 ha)
    have h2 := ha3 b (hb2 (lt_of_le_of_lt h1 ha))
    exact le_antisymm h2 h1
  · by_cases hb : b < INF
    · have h1 := ha3 b (hb2 hb)
      exact absurd (lt_of_le_of_lt h1 hb) ha
    · omega

theorem dvr_correct {graph : Graph} (hg : CostMatrix graph) :
    ∃ (N : Nat) (T : Table), (∀ fuel : Nat, N ≤ fuel → simulateDVR graph fuel = some T) ∧
      dvrPass graph graph.length T = (T, false) ∧ Stable graph T ∧ DvrInv graph T := by
  obtain ⟨T, h1, h2⟩ := dvrLoop_some graph graph.length
    (weight graph.length (fun i j => Graph.cost graph i j) + 1)
    (fun i j => Graph.cost graph i j) (by omega)
  refine ⟨_, T, fun fuel hfuel => dvrLoop_mono_le graph graph.length _ fuel _ T hfuel h1,
    h2, stable_of_pass graph T h2, ?_⟩
  exact dvrLoop_inv hg _ _ T (dvrInv_init hg) h1

/-- C26: for every cost matrix the `while (updated)` loop of `simulateDVR`
ends: there is a number of passes `N` and a table `T` such that every bound of
at least `N` passes yields `T`; a further pass over `T` changes nothing and
leaves `updated` false, and in `T` no relaxation through a direct neighbour
lowers an entry. -/
theorem dvr_terminates (graph : Graph) :
    ∃ (N : Nat) (T : Table), (∀ fuel : Nat, N ≤ fuel → simulateDVR graph fuel = some T) ∧
      dvrPass graph graph.length T = (T, false) ∧ Stable graph T := by
  obtain ⟨T, h1, h2⟩ := dvrLoop_some graph graph.length
    (weight graph.length (fun i j => Graph.cost graph i j) + 1)
    (fun i j => Graph.cost graph i j) (by omega)
  exact ⟨_, T, fun fuel hfuel => dvrLoop_mono_le graph graph.length _ fuel _ T hfuel h1,
    h2, stable_of_pass graph T h2⟩

/-- C25: for an `n`×`n` matrix with zero diagonal and entries in `[0, 9999]`,
`simulateDVR` ends with a table `T` whose entry for every source `i` and
destination `k` equals the entry `k` of the array that `simulateLSR` computes
for source `i`; that entry is the least cost of a walk from `i` to `k` when
this cost is below 9999, and 9999 when every walk costs at least 9999 (in
particular when there is none). -/
theorem dvr_equals_lsr (graph : Graph) (hg : CostMatrix graph) :
    ∃ (N : Nat) (T : Table), (∀ fuel : Nat, N ≤ fuel → simulateDVR graph fuel = some T) ∧
      ∀ i < graph.length, ∀ k < graph.length,
        T i k = simulateLSR graph i k ∧
        (∀ d : Int, LeastCost graph i k d → d < 9999 → T i k = d) ∧
        ((∀ c : Int, Walk graph i k c → 9999 ≤ c) → T i k = 9999) := by
  obtain ⟨N, T, hN, _, hst, hinv⟩ := dvr_correct hg
  refine ⟨N, T, hN, ?_⟩
  intro i hi k hk
  obtain ⟨_, t1, t2⟩ := hinv i hi k hk
  have t3 : ∀ c, Walk graph i k c → T i k ≤ c := fun c hw => dvr_optimal hg hinv hst hw
  have t0 : T i k ≤ INF := le_trans t1 ((hg.2 i hi).2 k hk).2
  obtain ⟨l1, l2, l3⟩ := lsr_correct hg hi hk
  refine ⟨capped_unique t0 t2 t3 l1 l2 l3, ?_, ?_⟩
  · intro d hd hlt
    have h1 := t3 d hd.1
    have h2 := hd.2 (T i k) (t2 (by unfold INF; omega))
    exact le_antisymm h1 h2
  · intro hall
    by_cases h : T i k < INF
    · have := hall (T i k) (t2 h)
      unfold INF at h; omega
    · unfold INF at h t0; omega

theorem costMatrix_demo : CostMatrix demoGraph := by
  unfold CostMatrix
  decide

theorem dvr_equals_lsr_witness :
    ∃ (N : Nat) (T : Table), (∀ fuel : Nat, N ≤ fuel → simulateDVR demoGraph fuel = some T) ∧
      T 0 2 = simulateLSR demoGraph 0 2 ∧ simulateLSR demoGraph 0 2 = 3 := by
  obtain ⟨N, T, h1, h2⟩ := dvr_equals_lsr demoGraph costMatrix_demo
  exact ⟨N, T, h1, (h2 0 (by decide) 2 (by decide)).1, by decide⟩

end Routing
